import Mathlib

/-!
Verification of the DeltaNEAR derivatives canonicalization and hashing engine
(`contracts/near-intents-derivatives/src/canonicalization.rs`) and of the
simulation-gated execution workflow (`src/lib.rs`), as a shallow embedding.

Modelling conventions:
* A parsed `serde_json::Value` is modelled by `Json` below.  Objects are
  association lists of key/value pairs; a value produced by the JSON parser
  has no duplicate keys (`serde_json`'s map keeps one entry per key), which
  theorems assume where it matters (`nodupRec`).  JSON numbers are modelled
  as integers: every number literal the canonicalizer accepts in the fields
  where numbers may appear (`nonce`, the basis-point constraints, decimals)
  is integral, and the decimal normalizer receives strings in all scenarios
  the claims quantify over.
* `Result<T, String>` is `Except String _`; a Rust panic in the execution
  layer (`expect!` / `require!`) is an `Except.error` / `Option.none`.
* The source validates decimals by re-parsing them through `f64`.  The
  embedding parses the same literal grammar (optional sign, digits with at
  most one dot, and the special `inf`/`infinity`/`nan` forms, scientific
  notation having been rejected beforehand) but keeps the exact rational
  value of the literal instead of the nearest binary double.  The two agree
  on every literal whose significant digits fit in a double's 15 decimal
  digits of precision, which covers the bounds and precisions used at every
  call site (size 8, leverage 2, strike 2 fractional digits).
* Rust `str::len` is byte length, so length checks use `String.utf8ByteSize`.
-/

inductive Json where
  | null : Json
  | bool (b : Bool) : Json
  | num (n : Int) : Json
  | str (s : String) : Json
  | arr (elems : List Json) : Json
  | obj (fields : List (String × Json)) : Json
/-- `Value::as_object`. -/
def Json.asObj : Json → Option (List (String × Json))
  | .obj fs => some fs
  | _ => none

/-- `Value::as_str`. -/
def Json.asStr : Json → Option String
  | .str s => some s
  | _ => none

/-- `Value::as_array`. -/
def Json.asArr : Json → Option (List Json)
  | .arr xs => some xs
  | _ => none

/-- `Value::as_u64`: the integer if it is a non-negative number. -/
def Json.asU64 : Json → Option Nat
  | .num n => if 0 ≤ n then some n.toNat else none
  | _ => none

/-- `Map::get` on a JSON object (first entry with the key). -/
def lookupField (k : String) (fs : List (String × Json)) : Option Json :=
  (fs.find? (fun p => p.1 == k)).map (·.2)

/-- `Option::ok_or`. -/
def okOr (o : Option α) (msg : String) : Except String α :=
  match o with
  | some a => .ok a
  | none => .error msg

/-- Lexicographic `≤` on character lists as a computation; agrees with the
standard string order (`strLeB_iff` below). -/
def charListLe : List Char → List Char → Bool
  | [], _ => true
  | _ :: _, [] => false
  | a :: as, b :: bs =>
    if a.toNat < b.toNat then true
    else if b.toNat < a.toNat then false
    else charListLe as bs

/-- Rust's `&str` ordering (byte-lexicographic, which on UTF-8 agrees with
code-point lexicographic). -/
def strLeB (a b : String) : Bool := charListLe a.data b.data

def insertStr (a : String) : List String → List String
  | [] => [a]
  | b :: l => if strLeB a b then a :: b :: l else b :: insertStr a l

/-- Sort a list of keys, as `Vec::sort` does before the field-set checks.
For strings the sorted list is determined by the multiset of elements, so the
choice of (stable) sorting algorithm is observationally irrelevant. -/
def sortStrings : List String → List String
  | [] => []
  | a :: l => insertStr a (sortStrings l)

def insertField (a : String × Json) : List (String × Json) → List (String × Json)
  | [] => [a]
  | b :: l => if strLeB a.1 b.1 then a :: b :: l else b :: insertField a l

/-- Sort object fields by key (the order a `BTreeMap` yields). -/
def sortFields : List (String × Json) → List (String × Json)
  | [] => []
  | a :: l => insertField a (sortFields l)

/-- Rust's `{:?}` rendering of a `Vec<&str>`, used in schema error messages. -/
def fmtKeys (ks : List String) : String :=
  "[" ++ String.intercalate ", " (ks.map (fun k => "\"" ++ k ++ "\"")) ++ "]"

/-- The exact value of a parsed floating-point literal: the source stores it
in an `f64`, whose special values we keep symbolic and whose finite values we
keep exact (see the header note on precision). -/
inductive FVal where
  | nan : FVal
  | inf (neg : Bool) : FVal
  | fin (q : ℚ) : FVal
deriving DecidableEq

/-- IEEE `<` on parsed values (`NaN` compares false with everything). -/
def fvLt : FVal → FVal → Bool
  | .nan, _ => false
  | _, .nan => false
  | .inf true, .inf true => false
  | .inf true, _ => true
  | .inf false, _ => false
  | .fin _, .inf true => false
  | .fin _, .inf false => true
  | .fin a, .fin b => decide (a < b)

/-- IEEE `>` on parsed values. -/
def fvGt (a b : FVal) : Bool := fvLt b a

def fvNeg : FVal → FVal
  | .nan => .nan
  | .inf neg => .inf (!neg)
  | .fin q => .fin (-q)

def isDigits (l : List Char) : Bool := l.all (·.isDigit)

/-- Numeric value of a big-endian digit string. -/
def digitsVal (l : List Char) : Nat :=
  l.foldl (fun a c => 10 * a + (c.toNat - 48)) 0

/-- Split a character list at its first `'.'`. -/
def splitDot : List Char → List Char × Option (List Char)
  | [] => ([], none)
  | c :: rest =>
    if c = '.' then ([], some rest)
    else
      let p := splitDot rest
      (c :: p.1, p.2)

/-- The mantissa grammar of Rust's `f64::from_str` (scientific notation is
rejected by the caller before parsing): digits with at most one dot and at
least one digit overall, valued exactly. -/
def parseMantissa (cs : List Char) : Option ℚ :=
  let p := splitDot cs
  match p.2 with
  | none => if cs ≠ [] ∧ isDigits cs then some (digitsVal cs) else none
  | some f =>
    if (p.1 ≠ [] ∨ f ≠ []) ∧ isDigits p.1 ∧ isDigits f then
      some ((digitsVal p.1 : ℚ) + (digitsVal f : ℚ) / 10 ^ f.length)
    else none

/-- The unsigned part of Rust's `f64::from_str`: `inf`, `infinity` and `nan`
(case-insensitive) or a mantissa. -/
def parseUnsignedF (cs : List Char) : Option FVal :=
  let lower := cs.map Char.toLower
  if lower = "inf".data ∨ lower = "infinity".data then some (.inf false)
  else if lower = "nan".data then some .nan
  else (parseMantissa cs).map .fin

/-- Rust's `s.parse::<f64>()`, with the exact value kept (header note): an
optional sign is stripped and the rest parsed unsigned. -/
def parseFloat (s : String) : Option FVal :=
  match s.data with
  | [] => parseUnsignedF []
  | c :: rest =>
    if c = '+' then parseUnsignedF rest
    else if c = '-' then (parseUnsignedF rest).map fvNeg
    else parseUnsignedF (c :: rest)

/-- Big-endian decimal digit characters of `n` (never empty). -/
def natStr (n : Nat) : List Char :=
  if n = 0 then ['0'] else ((Nat.digits 10 n).map Nat.digitChar).reverse

/-- `format!("{:.0}", parsed)` for an integral value: its decimal digits,
with a sign for negative values (unreachable here because the normalizer has
already rejected a leading `'-'`). -/
def intFmt (n : Int) : String :=
  if n < 0 then "-" ++ String.mk (natStr n.natAbs) else String.mk (natStr n.toNat)

/-- Fractional decimal digits of `r ∈ [0, 1)` by long division, stopping at
remainder zero; `fuel` bounds the number of digits produced.  When some
`10 ^ L` with `L ≤ fuel` clears `r`'s denominator this produces exactly the
digits of `r` with no trailing zero, which is what `format!("{}", f)` prints
after the integer part for a non-integral `f` (shortest round-trip form). -/
def fracDigitsAux : Nat → ℚ → List Char
  | 0, _ => []
  | fuel + 1, r =>
    if r = 0 then []
    else
      let d := (Rat.floor (r * 10)).toNat
      Nat.digitChar d :: fracDigitsAux fuel (r * 10 - Rat.floor (r * 10))

/-- `Vec`-style `trim_end_matches c`. -/
def trimTrailing (c : Char) (l : List Char) : List Char :=
  (l.reverse.dropWhile (· = c)).reverse

/-- `format!("{}", parsed)` for a non-integral positive rational followed by
the source's `trim_end_matches('0').trim_end_matches('.')` (both trims are
no-ops on this shortest form; they are kept to mirror the source). -/
def fmtNonInt (q : ℚ) : String :=
  let formatted := natStr (Rat.floor q).toNat ++ '.' :: fracDigitsAux q.den (q - Rat.floor q)
  String.mk (trimTrailing '.' (trimTrailing '0' formatted))

/-- The string the decimal normalizer inspects: a string value trimmed, or a
number value's decimal rendering (`canonicalization.rs:184-190`). -/
def decimalStr : Json → Option String
  | .str s => some s.trim
  | .num n => some (toString n)
  | _ => none

/-- `Canonicalizer::canonicalize_decimal` (`canonicalization.rs:183-243`). -/
def canonicalize_decimal (value : Json) (min max : String) (precision : Nat) :
    Except String Json :=
  match decimalStr value with
  | none => .error "Decimal value must be string or number"
  | some s =>
    if s.contains 'e' || s.contains 'E' then
      .error ("Scientific notation not allowed: " ++ s)
    else if s.length > 1 && s.startsWith "0" && !s.startsWith "0." then
      .error ("Leading zeros not allowed: " ++ s)
    else if s.startsWith "+" then
      .error ("Positive sign not allowed: " ++ s)
    else if s.startsWith "-" then
      .error ("Negative values not allowed: " ++ s)
    else
      match parseFloat s with
      | none => .error ("Invalid decimal: " ++ s)
      | some parsed =>
        match parseFloat min, parseFloat max with
        | some min_val, some max_val =>
          if fvLt parsed min_val || fvGt parsed max_val then
            .error ("Value " ++ s ++ " out of range [" ++ min ++ ", " ++ max ++ "]")
          else
            let dot := s.posOf '.'
            if dot ≠ s.endPos ∧ s.utf8ByteSize - dot.byteIdx - 1 > precision then
              .error ("Value " ++ s ++ " exceeds " ++ toString precision ++ " decimal places")
            else
              match parsed with
              | .nan => .ok (.str "NaN")
              | .inf _ => .ok (.str "inf")
              | .fin q =>
                if q = 0 then .ok (.str "0")
                else if q.den = 1 then .ok (.str (intFmt q.num))
                else .ok (.str (fmtNonInt q))
        | _, _ => .error "invalid bounds"

/-- The structural checks of `normalize_timestamp` (`canonicalization.rs:412-423`):
20 bytes and exactly one `'T'` in `normalized[..19]`.  At every use the string
ends in the one-byte `'Z'` and has 20 bytes, so the first 19 bytes equal
`dropRight 1`. -/
def timestampFormatCheck (normalized : String) : Except String String :=
  if normalized.utf8ByteSize ≠ 20 then
    .error ("Invalid timestamp length: " ++ normalized)
  else if ((normalized.dropRight 1).splitOn "T").length ≠ 2 then
    .error ("Invalid timestamp format, missing 'T': " ++ normalized)
  else .ok normalized

/-- `Canonicalizer::normalize_timestamp` (`canonicalization.rs:388-424`). -/
def normalize_timestamp (ts : String) : Except String String :=
  let trimmed := ts.trim
  if !trimmed.endsWith "Z" then
    .error ("Timestamp must end with 'Z': " ++ ts)
  else if trimmed.contains '+' || (trimmed.contains '-' && !trimmed.startsWith "20") then
    .error ("Timestamp must not have timezone offset: " ++ ts)
  else if trimmed.contains '.' then
    match trimmed.splitOn "." with
    | [a, _] => timestampFormatCheck (a ++ "Z")
    | _ => .error ("Invalid timestamp format: " ++ ts)
  else timestampFormatCheck trimmed

/-- `Canonicalizer::normalize_signer_id` (`canonicalization.rs:427-436`). -/
def normalize_signer_id (signer_id : String) : Except String String :=
  let normalized := signer_id.trim.toLower
  if normalized.utf8ByteSize = 0 || normalized.utf8ByteSize > 64 then
    .error ("Invalid signer_id length: " ++ signer_id)
  else .ok normalized

/-- `Canonicalizer::normalize_nonce` (`canonicalization.rs:439-445`). -/
def normalize_nonce (nonce : Json) : Except String String :=
  match nonce with
  | .str s => .ok s.trim
  | .num n => .ok (toString n)
  | _ => .error "Nonce must be string or number"

/-- The required derivatives fields (`canonicalization.rs:90`). -/
def requiredDerivKeys : List String := ["collateral", "instrument", "side", "size", "symbol"]

/-- The allowed derivatives fields (`canonicalization.rs:97`). -/
def allowedDerivKeys : List String :=
  ["collateral", "constraints", "instrument", "leverage", "option", "side", "size", "symbol"]

/-- The allowed constraints fields (`canonicalization.rs:292`). -/
def allowedConstraintKeys : List String :=
  ["max_slippage_bps", "max_funding_bps_8h", "max_fee_bps", "venue_allowlist"]

/-- `Canonicalizer::canonicalize_collateral` (`canonicalization.rs:354-385`). -/
def canonicalize_collateral (collateral : List (String × Json)) : Except String Json := do
  let keys := collateral.map (·.1)
  if sortStrings keys ≠ ["chain", "token"] then
    .error ("Collateral must have exactly 'token' and 'chain'. Got: " ++ fmtKeys keys)
  else do
    let chain0 ← okOr ((lookupField "chain" collateral).bind Json.asStr) "Missing collateral chain"
    let chain := chain0.trim.toLower
    if !(["near", "ethereum", "arbitrum", "base", "solana"].contains chain) then
      .error ("Invalid chain: " ++ chain)
    else do
      let token0 ← okOr ((lookupField "token" collateral).bind Json.asStr) "Missing collateral token"
      .ok (.obj [("chain", .str chain), ("token", .str token0.trim)])

/-- `Canonicalizer::canonicalize_option` (`canonicalization.rs:246-283`). -/
def canonicalize_option (opt : List (String × Json)) : Except String Json := do
  let keys := opt.map (·.1)
  if sortStrings keys ≠ ["expiry", "kind", "strike"] then
    .error ("Option must have exactly 'kind', 'strike', 'expiry'. Got: " ++ fmtKeys keys)
  else do
    let expiry0 ← okOr ((lookupField "expiry" opt).bind Json.asStr) "Missing option expiry"
    let expiry ← normalize_timestamp expiry0
    let kind0 ← okOr ((lookupField "kind" opt).bind Json.asStr) "Missing option kind"
    let kind := kind0.trim.toLower
    if !(["call", "put"].contains kind) then
      .error ("Invalid option kind: " ++ kind)
    else do
      let strikeV ← okOr (lookupField "strike" opt) "Missing strike price"
      let strike ← canonicalize_decimal strikeV "0.01" "1000000000" 2
      .ok (.obj [("expiry", .str expiry), ("kind", .str kind), ("strike", strike)])

/-- `Vec::dedup`: remove consecutive duplicates. -/
def dedupConsec : List String → List String
  | [] => []
  | [a] => [a]
  | a :: b :: rest =>
    if a = b then dedupConsec (b :: rest) else a :: dedupConsec (b :: rest)

/-- `Canonicalizer::canonicalize_constraints` (`canonicalization.rs:286-351`).
The unknown-field loop iterates over the map's keys, which a `BTreeMap`
yields in sorted order. -/
def canonicalize_constraints (constraints : Option (List (String × Json))) :
    Except String Json := do
  let unknown : Option String :=
    match constraints with
    | some c => (sortStrings (c.map (·.1))).find? (fun k => !allowedConstraintKeys.contains k)
    | none => none
  match unknown with
  | some k => .error ("Unknown constraint field: " ++ k)
  | none =>
    let max_fee_bps := ((constraints.bind (lookupField "max_fee_bps")).bind Json.asU64).getD 30
    if max_fee_bps > 100 then
      .error ("max_fee_bps " ++ toString max_fee_bps ++ " exceeds 100")
    else
      let max_funding_bps_8h :=
        ((constraints.bind (lookupField "max_funding_bps_8h")).bind Json.asU64).getD 50
      if max_funding_bps_8h > 100 then
        .error ("max_funding_bps_8h " ++ toString max_funding_bps_8h ++ " exceeds 100")
      else
        let max_slippage_bps :=
          ((constraints.bind (lookupField "max_slippage_bps")).bind Json.asU64).getD 100
        if max_slippage_bps > 1000 then
          .error ("max_slippage_bps " ++ toString max_slippage_bps ++ " exceeds 1000")
        else
          let venue_allowlist : List String :=
            (((constraints.bind (lookupField "venue_allowlist")).bind Json.asArr).map
              (fun a => a.filterMap (fun v => (v.asStr).map (fun s => s.trim.toLower)))).getD []
          let venue_allowlist := dedupConsec (sortStrings venue_allowlist)
          .ok (.obj
            [("max_fee_bps", .num max_fee_bps),
             ("max_funding_bps_8h", .num max_funding_bps_8h),
             ("max_slippage_bps", .num max_slippage_bps),
             ("venue_allowlist", .arr (venue_allowlist.map Json.str))])

/-- The leverage step of `canonicalize_derivatives` (`canonicalization.rs:132-135`):
`deriv.get("leverage").map(canonicalize_decimal).transpose()?.unwrap_or("1")`. -/
def canonicalize_leverage (deriv : List (String × Json)) : Except String Json :=
  match lookupField "leverage" deriv with
  | some v => canonicalize_decimal v "1" "100" 2
  | none => .ok (.str "1")

/-- The option step of `canonicalize_derivatives` (`canonicalization.rs:138-147`):
the option object is mandatory and canonicalized for option instruments and
the canonical field is `null` otherwise. -/
def canonicalize_option_field (instrument : String) (deriv : List (String × Json)) :
    Except String Json :=
  if instrument = "option" then
    match (lookupField "option" deriv).bind Json.asObj with
    | some o => canonicalize_option o
    | none => .error "Missing option params for option instrument"
  else .ok Json.null

/-- `Canonicalizer::canonicalize_derivatives` (`canonicalization.rs:84-180`). -/
def canonicalize_derivatives (deriv : List (String × Json)) : Except String Json := do
  let keys := sortStrings (deriv.map (·.1))
  match requiredDerivKeys.find? (fun f => !keys.contains f) with
  | some f => .error ("Missing required field: " ++ f)
  | none =>
    match keys.find? (fun k => !allowedDerivKeys.contains k) with
    | some k => .error ("Unknown field in derivatives: " ++ k)
    | none => do
      let collateral0 ← okOr ((lookupField "collateral" deriv).bind Json.asObj)
        "Missing or invalid collateral"
      let collateralC ← canonicalize_collateral collateral0
      let constraintsC ← canonicalize_constraints ((lookupField "constraints" deriv).bind Json.asObj)
      let instrument0 ← okOr ((lookupField "instrument" deriv).bind Json.asStr) "Missing instrument"
      let instrument := instrument0.trim.toLower
      if !(["perp", "option"].contains instrument) then
        .error ("Invalid instrument: " ++ instrument)
      else do
        let leverage ← canonicalize_leverage deriv
        let optionC ← canonicalize_option_field instrument deriv
        let side0 ← okOr ((lookupField "side" deriv).bind Json.asStr) "Missing side"
        let side := side0.trim.toLower
        if !(["long", "short", "buy", "sell"].contains side) then
          .error ("Invalid side: " ++ side)
        else do
          let sizeV ← okOr (lookupField "size" deriv) "Missing size"
          let sizeC ← canonicalize_decimal sizeV "0.00000001" "1000000" 8
          let symbol0 ← okOr ((lookupField "symbol" deriv).bind Json.asStr) "Missing symbol"
          let symbol := symbol0.trim.toUpper
          if !(symbol.contains '-') then
            .error ("Invalid symbol format: " ++ symbol)
          else
            .ok (.obj
              [("collateral", collateralC),
               ("constraints", constraintsC),
               ("instrument", .str instrument),
               ("leverage", leverage),
               ("option", optionC),
               ("side", .str side),
               ("size", sizeC),
               ("symbol", .str symbol)])

/-- The six root fields, sorted (`canonicalization.rs:20`). -/
def expectedRootKeys : List String :=
  ["deadline", "derivatives", "intent_type", "nonce", "signer_id", "version"]

/-- `Canonicalizer::canonicalize_intent` (`canonicalization.rs:13-81`). -/
def canonicalize_intent (intent : Json) : Except String Json := do
  let obj ← okOr intent.asObj "Intent must be an object"
  let keys := sortStrings (obj.map (·.1))
  if keys ≠ expectedRootKeys then
    .error ("Invalid root fields. Expected " ++ fmtKeys expectedRootKeys ++ ", got " ++ fmtKeys keys)
  else do
    let version ← okOr ((lookupField "version" obj).bind Json.asStr) "Missing or invalid version"
    if version ≠ "1.0.0" then
      .error ("Invalid version: " ++ version ++ ". Must be 1.0.0")
    else do
      let intent_type ← okOr ((lookupField "intent_type" obj).bind Json.asStr)
        "Missing or invalid intent_type"
      if intent_type ≠ "derivatives" then
        .error ("Invalid intent_type: " ++ intent_type ++ ". Must be 'derivatives'")
      else do
        let derivatives0 ← okOr ((lookupField "derivatives" obj).bind Json.asObj)
          "Missing or invalid derivatives"
        let deadline0 ← okOr ((lookupField "deadline" obj).bind Json.asStr) "Missing deadline"
        let deadline ← normalize_timestamp deadline0
        let derivativesC ← canonicalize_derivatives derivatives0
        let nonceV ← okOr (lookupField "nonce" obj) "Missing nonce"
        let nonce ← normalize_nonce nonceV
        let signer0 ← okOr ((lookupField "signer_id" obj).bind Json.asStr) "Missing signer_id"
        let signer ← normalize_signer_id signer0
        .ok (.obj
          [("deadline", .str deadline),
           ("derivatives", derivativesC),
           ("intent_type", .str "derivatives"),
           ("nonce", .str nonce),
           ("signer_id", .str signer),
           ("version", .str "1.0.0")])

/-- Escape one character as in `serde_json`'s string serializer. -/
def escapeChar (c : Char) : String :=
  if c = '"' then "\\\""
  else if c = '\\' then "\\\\"
  else if c = '\x08' then "\\b"
  else if c = '\t' then "\\t"
  else if c = '\n' then "\\n"
  else if c = '\x0c' then "\\f"
  else if c = '\r' then "\\r"
  else if c.toNat < 32 then
    "\\u00" ++ String.mk [Nat.digitChar (c.toNat / 16), Nat.digitChar (c.toNat % 16)]
  else String.mk [c]

def escapeStr (s : String) : String :=
  String.join (s.data.map escapeChar)

mutual
/-- `serde_json::to_string` of a canonical tree: compact JSON, keys emitted in
the tree's own (sorted) order.  Only determinism matters for the claims: equal
trees serialize equally. -/
def serializeJson : Json → String
  | .null => "null"
  | .bool b => if b then "true" else "false"
  | .num n => toString n
  | .str s => "\"" ++ escapeStr s ++ "\""
  | .arr xs => "[" ++ serializeList xs ++ "]"
  | .obj fs => "\x7b" ++ serializeFields fs ++ "\x7d"
def serializeList : List Json → String
  | [] => ""
  | [x] => serializeJson x
  | x :: xs => serializeJson x ++ "," ++ serializeList xs
def serializeFields : List (String × Json) → String
  | [] => ""
  | [(k, v)] => "\"" ++ escapeStr k ++ "\":" ++ serializeJson v
  | (k, v) :: fs => "\"" ++ escapeStr k ++ "\":" ++ serializeJson v ++ "," ++ serializeFields fs
end

/-- `Contract::compute_intent_hash` (`lib.rs:721-736`) with the SHA-256
primitive abstracted as `h`: canonicalize, serialize deterministically, hash.
The `expect` on a canonicalization failure is the error case. -/
def computeIntentHash (h : String → String) (intent : Json) : Except String String :=
  (canonicalize_intent intent).map (fun c => h (serializeJson c))

mutual
/-- Recursively sort every object's fields by key (values first).  Two `Json`
trees are "identical except for the order of keys at some nesting levels"
exactly when their `sortKeys` normal forms are equal. -/
def sortKeys : Json → Json
  | .null => .null
  | .bool b => .bool b
  | .num n => .num n
  | .str s => .str s
  | .arr xs => .arr (sortKeysList xs)
  | .obj fs => .obj (sortFields (sortKeysFields fs))
def sortKeysList : List Json → List Json
  | [] => []
  | x :: xs => sortKeys x :: sortKeysList xs
def sortKeysFields : List (String × Json) → List (String × Json)
  | [] => []
  | (k, v) :: fs => (k, sortKeys v) :: sortKeysFields fs
end

def nodupKeysB : List String → Bool
  | [] => true
  | k :: ks => !(ks.contains k) && nodupKeysB ks

mutual
/-- Every object in the tree has pairwise-distinct keys — true of any value
produced by a JSON parser. -/
def nodupRec : Json → Bool
  | .null => true
  | .bool _ => true
  | .num _ => true
  | .str _ => true
  | .arr xs => nodupRecList xs
  | .obj fs => nodupKeysB (fs.map (·.1)) && nodupRecFields fs
def nodupRecList : List Json → Bool
  | [] => true
  | x :: xs => nodupRec x && nodupRecList xs
def nodupRecFields : List (String × Json) → Bool
  | [] => true
  | (_, v) :: fs => nodupRec v && nodupRecFields fs
end

/-- `SimulationData` (`lib.rs:168-178`). -/
structure SimulationData where
  simulation_hash : String
  timestamp : Nat
  estimated_fill : String
  estimated_fees : String
  venue : String
  valid : Bool
  errMsg : Option String

/-- The execution-log record as built by `execute_intents` (`lib.rs:654-667`). -/
structure ExecLogEntry where
  intent_hash : String
  status : String
  venue : String
  fill_price : String
  filled_size : String
  fees_paid : String
  chain_signature : Option String
  external_tx : Option String
  ts_simulated : Nat
  ts_executed : Nat

/-- `ExecutionReceipt` (`lib.rs:181-189`); failed entries are the `json!`
objects pushed by `execute_intents`. -/
structure ExecutionReceipt where
  success : Bool
  executed : List String
  failed : List Json
  total_fee : String
  settlements : List Json

/-- The contract storage touched by `execute_intents`: the simulation-result
map and the execution-log map (both keyed by intent hash). -/
structure ExecState where
  simulation_results : List (String × SimulationData)
  execution_logs : List (String × ExecLogEntry)

def lookupMap (k : String) (m : List (String × α)) : Option α :=
  (m.find? (fun p => p.1 == k)).map (·.2)

/-- `UnorderedMap::insert`: overwrite the entry or append a new one. -/
def insertMap (k : String) (v : α) : List (String × α) → List (String × α)
  | [] => [(k, v)]
  | (k', v') :: rest =>
    if k' = k then (k, v) :: rest else (k', v') :: insertMap k v rest

/-- `Contract::compute_simulation_hash` (`lib.rs:706-716`): hash of the
`json!` parameter object (whose `BTreeMap` emits keys sorted). -/
def computeSimulationHash (h : String → String) (intentHash : String)
    (sd : SimulationData) : String :=
  h (serializeJson (.obj
    [("estimated_fees", .str sd.estimated_fees),
     ("estimated_fill", .str sd.estimated_fill),
     ("intent_hash", .str intentHash),
     ("timestamp", .num sd.timestamp),
     ("venue", .str sd.venue)]))

/-- A `failed` entry pushed by `execute_intents` (`json!` emits sorted keys). -/
def failEntry (intentHash err msg : String) : Json :=
  .obj [("error", .str err), ("intent_hash", .str intentHash), ("message", .str msg)]

/-- The freshness window: 300 seconds in nanoseconds (`lib.rs:617`). -/
def simulationFreshnessWindow : Nat := 300000000000

/-- One iteration of the `execute_intents` loop (`lib.rs:592-679`): gate the
intent on a prior, fresh, hash-matching simulation record, then log it.
`now` is `env::block_timestamp()`; accumulators are `(executed, failed)`. -/
def execStep (h : String → String) (now : Nat) (intent : Json)
    (st : ExecState) (executed : List String) (failed : List Json) :
    Except String (ExecState × List String × List Json) := do
  let intentHash ← computeIntentHash h intent
  match lookupMap intentHash st.simulation_results with
  | none =>
    .ok (st, executed,
      failed ++ [failEntry intentHash "SIMULATION_REQUIRED"
        "Intent must be simulated before execution"])
  | some sd =>
    if now - sd.timestamp > simulationFreshnessWindow then
      .ok (st, executed,
        failed ++ [failEntry intentHash "SIMULATION_EXPIRED" "Simulation older than 5 minutes"])
    else if computeSimulationHash h intentHash sd ≠ sd.simulation_hash then
      .ok (st, executed,
        failed ++ [failEntry intentHash "SIMULATION_HASH_MISMATCH"
          "Intent parameters changed since simulation"])
    else
      .ok
        ({ st with
            execution_logs := insertMap intentHash
              { intent_hash := intentHash
                status := "executed"
                venue := sd.venue
                fill_price := sd.estimated_fill
                filled_size := "1"
                fees_paid := sd.estimated_fees
                chain_signature := none
                external_tx := none
                ts_simulated := sd.timestamp
                ts_executed := now } st.execution_logs },
          executed ++ [intentHash], failed)

def execLoop (h : String → String) (now : Nat) (intents : List Json)
    (st : ExecState) (executed : List String) (failed : List Json) :
    Except String (ExecState × List String × List Json) :=
  match intents with
  | [] => .ok (st, executed, failed)
  | intent :: rest => do
    let r ← execStep h now intent st executed failed
    execLoop h now rest r.1 r.2.1 r.2.2

/-- `Contract::execute_intents` (`lib.rs:584-688`), over already-parsed
intents.  A hash-computation panic (`expect`) aborts the whole call. -/
def execute_intents (h : String → String) (now : Nat) (intents : List Json)
    (st : ExecState) : Except String (ExecState × ExecutionReceipt) := do
  let r ← execLoop h now intents st [] []
  .ok (r.1,
    { success := r.2.2.isEmpty
      executed := r.2.1
      failed := r.2.2
      total_fee := "0"
      settlements := [] })

/-- `SimulationResult` (`lib.rs:158-166`), the record type consulted by
`log_execution`'s simulation gate. -/
structure SimulationResult where
  intent_hash : String
  simulation_hash : String
  success : Bool
  error_message : Option String
  timestamp : Nat

/-- `ExecutionLog` (`lib.rs:126-138`), the record type stored by
`log_execution`. -/
structure ExecutionLog where
  intent_hash : String
  solver_id : String
  venue : String
  fill_price : String
  notional : Nat
  fees_bps : Nat
  pnl : Option String
  status : String
  timestamp : Nat

/-- `Contract::has_successful_simulation` (`lib.rs:336-340`). -/
def has_successful_simulation (simResults : List (String × SimulationResult))
    (intentHash : String) : Bool :=
  ((lookupMap intentHash simResults).map (·.success)).getD false

/-- `Contract::log_execution` (`lib.rs:360-377`): `require!` aborts (no state
change, `none`) unless a successful simulation is recorded for the hash. -/
def log_execution (simResults : List (String × SimulationResult))
    (logs : List (String × ExecutionLog)) (intentHash : String) (entry : ExecutionLog) :
    Option (List (String × ExecutionLog)) :=
  if has_successful_simulation simResults intentHash then
    some (insertMap intentHash entry logs)
  else none
-- appended to a copy of the defs for testing
@[simp]
theorem exceptBind_ok (a : α) (f : α → Except ε β) :
    (Except.ok a : Except ε α) >>= f = f a := rfl

@[simp]
theorem exceptBind_error (e : ε) (f : α → Except ε β) :
    (Except.error e : Except ε α) >>= f = .error e := rfl

@[simp]
theorem okOr_some (a : α) (msg : String) : okOr (some a) msg = .ok a := rfl

@[simp]
theorem okOr_none (msg : String) : okOr (none : Option α) msg = .error msg := rfl

/-- C5: a root-level key set differing from the six expected keys is rejected
with the schema error naming the expected and the actual (sorted) key sets. -/
theorem root_key_schema_violation (fs : List (String × Json))
    (h : sortStrings (fs.map (·.1)) ≠ expectedRootKeys) :
    canonicalize_intent (.obj fs) =
      .error ("Invalid root fields. Expected " ++ fmtKeys expectedRootKeys ++
        ", got " ++ fmtKeys (sortStrings (fs.map (·.1)))) := by
  simp [canonicalize_intent, Json.asObj, h]

theorem root_key_schema_violation_witness :
    sortStrings ([("version", Json.str "1.0.0")].map (·.1)) ≠ expectedRootKeys ∧
    canonicalize_intent (.obj [("version", Json.str "1.0.0")]) =
      .error ("Invalid root fields. Expected " ++ fmtKeys expectedRootKeys ++
        ", got " ++ fmtKeys (sortStrings ([("version", Json.str "1.0.0")].map (·.1)))) :=
  ⟨by decide, root_key_schema_violation _ (by decide)⟩
theorem charListLe_iff : ∀ as bs : List Char, charListLe as bs = true ↔ ¬ bs.lt as := by
  intro as
  induction as with
  | nil =>
    intro bs
    simp only [charListLe, true_iff]
    intro h
    cases h
  | cons a as ih =>
    intro bs
    cases bs with
    | nil =>
      simp only [charListLe, Bool.false_eq_true, false_iff, not_not]
      exact List.lt.nil a as
    | cons b bs =>
      simp only [charListLe]
      split_ifs with h1 h2
      · simp only [true_iff]
        intro h
        cases h with
        | head _ _ hba =>
          have hba' : b.toNat < a.toNat := hba
          omega
        | tail _ hnab _ => exact hnab h1
      · simp only [Bool.false_eq_true, false_iff, not_not]
        exact List.lt.head _ _ h2
      · rw [ih bs]
        constructor
        · intro h hc
          cases hc with
          | head _ _ hba => exact h2 hba
          | tail _ _ ht => exact h ht
        · intro h ht
          exact h (List.lt.tail h2 h1 ht)

theorem strLt_iff_data (a b : String) : a < b ↔ a.data.lt b.data := by
  rw [String.lt_iff_toList_lt]
  exact (List.lt_iff_lex_lt _ _).symm

theorem strLeB_iff (a b : String) : strLeB a b = true ↔ a ≤ b := by
  have h1 : a ≤ b ↔ ¬ b < a := ⟨fun h => h, fun h => h⟩
  rw [h1, strLt_iff_data]
  exact charListLe_iff a.data b.data

theorem insertStr_perm (a : String) : ∀ l : List String, (insertStr a l).Perm (a :: l) := by
  intro l
  induction l with
  | nil => rfl
  | cons b t ih =>
    simp only [insertStr]
    split_ifs
    · exact List.Perm.refl _
    · exact (ih.cons b).trans (List.Perm.swap a b t)

theorem sortStrings_perm (l : List String) : (sortStrings l).Perm l := by
  induction l with
  | nil => rfl
  | cons a t ih => exact (insertStr_perm a (sortStrings t)).trans (ih.cons a)

theorem insertStr_sorted (a : String) :
    ∀ {l : List String}, l.Sorted (· ≤ ·) → (insertStr a l).Sorted (· ≤ ·) := by
  intro l
  induction l with
  | nil => simp [insertStr]
  | cons b t ih =>
    intro h
    rw [List.sorted_cons] at h
    obtain ⟨hb, ht⟩ := h
    simp only [insertStr]
    split_ifs with hab
    · rw [List.sorted_cons]
      refine ⟨?_, List.sorted_cons.mpr ⟨hb, ht⟩⟩
      intro x hx
      rcases List.mem_cons.mp hx with h1 | h1
      · exact h1 ▸ (strLeB_iff a b).mp hab
      · exact le_trans ((strLeB_iff a b).mp hab) (hb x h1)
    · rw [List.sorted_cons]
      refine ⟨?_, ih ht⟩
      intro x hx
      rcases List.mem_cons.mp ((insertStr_perm a t).mem_iff.mp hx) with h1 | h1
      · exact h1 ▸ le_of_not_le (fun hc => hab ((strLeB_iff a b).mpr hc))
      · exact hb x h1
  
theorem sortStrings_sorted (l : List String) : (sortStrings l).Sorted (· ≤ ·) := by
  induction l with
  | nil => simp [sortStrings]
  | cons a t ih => exact insertStr_sorted a ih

theorem sortStrings_eq_of_perm {l1 l2 : List String} (h : l1.Perm l2) :
    sortStrings l1 = sortStrings l2 :=
  List.eq_of_perm_of_sorted ((sortStrings_perm l1).trans (h.trans (sortStrings_perm l2).symm))
    (sortStrings_sorted l1) (sortStrings_sorted l2)

theorem mem_dedupConsec : ∀ (l : List String) (a : String), a ∈ dedupConsec l ↔ a ∈ l := by
  intro l
  induction l with
  | nil => simp [dedupConsec]
  | cons b t ih =>
    cases t with
    | nil => simp [dedupConsec]
    | cons c t2 =>
      intro a
      simp only [dedupConsec]
      split
      · rename_i hbc
        rw [ih]
        subst hbc
        simp
      · simp only [List.mem_cons]
        rw [ih]
        simp [List.mem_cons]

theorem dedupConsec_sorted_lt :
    ∀ {l : List String}, l.Sorted (· ≤ ·) → (dedupConsec l).Sorted (· < ·) := by
  intro l
  induction l with
  | nil => simp [dedupConsec]
  | cons b t ih =>
    cases t with
    | nil => simp [dedupConsec]
    | cons c t2 =>
      intro h
      rw [List.sorted_cons] at h
      obtain ⟨hb, hct⟩ := h
      simp only [dedupConsec]
      split
      · exact ih hct
      · rename_i hbc
        rw [List.sorted_cons]
        refine ⟨?_, ih hct⟩
        intro x hx
        rw [mem_dedupConsec] at hx
        have hbx : b ≤ x := hb x hx
        have hcx : c ≤ x := by
          rcases List.mem_cons.mp hx with h1 | h1
          · exact le_of_eq h1.symm
          · exact (List.sorted_cons.mp hct).1 x h1
        rcases eq_or_lt_of_le hbx with h1 | h1
        · exact absurd (le_antisymm (hb c (by simp)) (h1 ▸ hcx)) hbc
        · exact h1

theorem canonical_venues_spec (l : List String) :
    (dedupConsec (sortStrings l)).Sorted (· ≤ ·) ∧
    (dedupConsec (sortStrings l)).Nodup ∧
    ∀ a, a ∈ dedupConsec (sortStrings l) ↔ a ∈ l := by
  have hlt := dedupConsec_sorted_lt (sortStrings_sorted l)
  refine ⟨hlt.imp le_of_lt, hlt.imp ne_of_lt, ?_⟩
  intro a
  rw [mem_dedupConsec]
  exact (sortStrings_perm l).mem_iff
/-- Success shape of `canonicalize_constraints`: the canonical object with the
defaulted / checked values. -/
theorem constraints_ok_shape (co : Option (List (String × Json))) (out : Json)
    (h : canonicalize_constraints co = .ok out) :
    ∃ f fu sl : Nat, ∃ vl, out = .obj
      [("max_fee_bps", .num f),
       ("max_funding_bps_8h", .num fu),
       ("max_slippage_bps", .num sl),
       ("venue_allowlist", .arr (vl.map Json.str))] ∧
      f = ((co.bind (lookupField "max_fee_bps")).bind Json.asU64).getD 30 ∧ f ≤ 100 ∧
      fu = ((co.bind (lookupField "max_funding_bps_8h")).bind Json.asU64).getD 50 ∧ fu ≤ 100 ∧
      sl = ((co.bind (lookupField "max_slippage_bps")).bind Json.asU64).getD 100 ∧ sl ≤ 1000 ∧
      vl = dedupConsec (sortStrings
        ((((co.bind (lookupField "venue_allowlist")).bind Json.asArr).map
          (fun a => a.filterMap (fun v => (v.asStr).map (fun s => s.trim.toLower)))).getD [])) := by
  simp only [canonicalize_constraints] at h
  split at h
  · exact absurd h (by simp)
  · split_ifs at h with h1 h2 h3
    simp only [Except.ok.injEq] at h
    exact ⟨_, _, _, _, h.symm, rfl, by omega, rfl, by omega, rfl, by omega, rfl⟩

/-- A bps constraint present as an out-of-bounds number is rejected. -/
theorem constraints_bps_reject (c : List (String × Json)) (n : Int) :
    (lookupField "max_fee_bps" c = some (.num n) → 100 < n →
      (canonicalize_constraints (some c)).isOk = false) ∧
    (lookupField "max_funding_bps_8h" c = some (.num n) → 100 < n →
      (canonicalize_constraints (some c)).isOk = false) ∧
    (lookupField "max_slippage_bps" c = some (.num n) → 1000 < n →
      (canonicalize_constraints (some c)).isOk = false) := by
  refine ⟨fun hl hn => ?_, fun hl hn => ?_, fun hl hn => ?_⟩ <;>
  · simp only [canonicalize_constraints]
    split
    · rfl
    · rw [show ((some c).bind (lookupField "max_fee_bps")) = lookupField "max_fee_bps" c from rfl,
        show ((some c).bind (lookupField "max_funding_bps_8h")) =
          lookupField "max_funding_bps_8h" c from rfl,
        show ((some c).bind (lookupField "max_slippage_bps")) =
          lookupField "max_slippage_bps" c from rfl, hl]
      simp only [Json.asU64, if_pos (by omega : (0:Int) ≤ n), Option.some_bind, Option.getD_some]
      split_ifs with h1 h2 h3 <;> first | rfl | omega
/-- C10: every accepted constraints object satisfies `max_fee_bps ≤ 100`,
`max_funding_bps_8h ≤ 100` and `max_slippage_bps ≤ 1000`; numeric inputs
exceeding a bound are rejected, and the defaults (30, 50, 100) satisfy the
bounds. -/
theorem constraints_upper_bound_invariant :
    (∀ co out, canonicalize_constraints co = .ok out →
      ∃ fields, ∃ f fu sl : Nat, out = .obj fields ∧
        lookupField "max_fee_bps" fields = some (.num f) ∧ f ≤ 100 ∧
        lookupField "max_funding_bps_8h" fields = some (.num fu) ∧ fu ≤ 100 ∧
        lookupField "max_slippage_bps" fields = some (.num sl) ∧ sl ≤ 1000) ∧
    (∀ c n, lookupField "max_fee_bps" c = some (.num n) → 100 < n →
      (canonicalize_constraints (some c)).isOk = false) ∧
    (∀ c n, lookupField "max_funding_bps_8h" c = some (.num n) → 100 < n →
      (canonicalize_constraints (some c)).isOk = false) ∧
    (∀ c n, lookupField "max_slippage_bps" c = some (.num n) → 1000 < n →
      (canonicalize_constraints (some c)).isOk = false) ∧
    canonicalize_constraints none = .ok (.obj
      [("max_fee_bps", .num 30), ("max_funding_bps_8h", .num 50),
       ("max_slippage_bps", .num 100), ("venue_allowlist", .arr [])]) := by
  refine ⟨?_, fun c n h1 h2 => (constraints_bps_reject c n).1 h1 h2,
    fun c n h1 h2 => (constraints_bps_reject c n).2.1 h1 h2,
    fun c n h1 h2 => (constraints_bps_reject c n).2.2 h1 h2, rfl⟩
  intro co out h
  obtain ⟨f, fu, sl, vl, hout, _, hf, _, hfu, _, hsl, _⟩ := constraints_ok_shape co out h
  exact ⟨_, f, fu, sl, hout, rfl, hf, rfl, hfu, rfl, hsl⟩

theorem constraints_upper_bound_invariant_witness :
    (canonicalize_constraints (some [("max_fee_bps", Json.num 200)])).isOk = false :=
  constraints_upper_bound_invariant.2.1 [("max_fee_bps", Json.num 200)] 200 rfl (by norm_num)
/-- C8: the canonical `venue_allowlist` is sorted ascending with no
duplicates, its entries are exactly the trimmed-and-lowercased string entries
of the input list, and an absent (or non-array) input yields the empty
list. -/
theorem venue_allowlist_canonical_form :
    ∀ co out, canonicalize_constraints co = .ok out →
      ∃ fields vl, out = .obj fields ∧
        lookupField "venue_allowlist" fields = some (.arr (vl.map Json.str)) ∧
        vl.Sorted (· ≤ ·) ∧ vl.Nodup ∧
        (∀ s, s ∈ vl ↔ ∃ a, (co.bind (lookupField "venue_allowlist")).bind Json.asArr = some a ∧
            ∃ v ∈ a, ∃ e, v.asStr = some e ∧ s = e.trim.toLower) ∧
        ((co.bind (lookupField "venue_allowlist")).bind Json.asArr = none → vl = []) := by
  intro co out h
  obtain ⟨f, fu, sl, vl, hout, _, _, _, _, _, _, hvl⟩ := constraints_ok_shape co out h
  refine ⟨_, vl, hout, rfl, ?_⟩
  cases hX : (co.bind (lookupField "venue_allowlist")).bind Json.asArr with
  | none =>
    rw [hX] at hvl
    simp only [Option.map_none', Option.getD_none] at hvl
    subst hvl
    refine ⟨(canonical_venues_spec []).1, (canonical_venues_spec []).2.1, ?_, fun _ => rfl⟩
    simp [dedupConsec, sortStrings, List.insertionSort]
  | some a =>
    rw [hX] at hvl
    simp only [Option.map_some', Option.getD_some] at hvl
    subst hvl
    obtain ⟨hs, hn, hm⟩ := canonical_venues_spec
      (a.filterMap (fun v => (v.asStr).map (fun s => s.trim.toLower)))
    refine ⟨hs, hn, ?_, by simp⟩
    intro s
    rw [hm s, List.mem_filterMap]
    constructor
    · rintro ⟨v, hv, he⟩
      rw [Option.map_eq_some'] at he
      obtain ⟨e, he1, he2⟩ := he
      exact ⟨a, rfl, v, hv, e, he1, he2.symm⟩
    · rintro ⟨a', ha', v, hv, e, he1, he2⟩
      rw [Option.some.injEq] at ha'
      subst ha'
      exact ⟨v, hv, by rw [he1, Option.map_some', he2]⟩

theorem venue_allowlist_canonical_form_witness :
    ∃ fields vl, (Json.obj
        [("max_fee_bps", .num 30), ("max_funding_bps_8h", .num 50),
         ("max_slippage_bps", .num 100),
         ("venue_allowlist", .arr [.str "aevo", .str "gmx-v2"])]) = .obj fields ∧
      lookupField "venue_allowlist" fields = some (.arr (vl.map Json.str)) ∧
      vl.Sorted (· ≤ ·) ∧ vl.Nodup ∧
      (∀ s, s ∈ vl ↔ ∃ a,
          ((some [("venue_allowlist", Json.arr
            [.str "GMX-V2", .str "aevo", .str "gmx-v2", .str "AEVO"])] :
              Option (List (String × Json))).bind
            (lookupField "venue_allowlist")).bind Json.asArr = some a ∧
          ∃ v ∈ a, ∃ e, v.asStr = some e ∧ s = e.trim.toLower) ∧
      (((some [("venue_allowlist", Json.arr
            [.str "GMX-V2", .str "aevo", .str "gmx-v2", .str "AEVO"])] :
              Option (List (String × Json))).bind
            (lookupField "venue_allowlist")).bind Json.asArr = none → vl = []) :=
  venue_allowlist_canonical_form
    (some [("venue_allowlist", Json.arr
      [.str "GMX-V2", .str "aevo", .str "gmx-v2", .str "AEVO"])]) _ (by with_unfolding_all rfl)
/-- C2 counterexample: `max_fee_bps` present with a non-integer value is not
rejected — the default 30 is silently substituted. -/
theorem optional_invalid_not_rejected_cex :
    canonicalize_constraints (some [("max_fee_bps", Json.str "invalid")]) =
      .ok (.obj [("max_fee_bps", .num 30), ("max_funding_bps_8h", .num 50),
                 ("max_slippage_bps", .num 100), ("venue_allowlist", .arr [])]) := by
  with_unfolding_all rfl

/-- C2 (amended): an invalid present `leverage` does abort canonicalization,
and a present bps value that is numeric but over its bound is rejected; but a
constraints field (or `venue_allowlist`) present with the wrong type is
treated as absent and its default substituted. -/
theorem optional_field_validation_amended :
    (∀ fs v, lookupField "leverage" fs = some v →
      (canonicalize_decimal v "1" "100" 2).isOk = false →
      (canonicalize_derivatives fs).isOk = false) ∧
    (∀ c n, lookupField "max_fee_bps" c = some (.num n) → 100 < n →
      (canonicalize_constraints (some c)).isOk = false) ∧
    (∀ c out v, canonicalize_constraints (some c) = .ok out →
      lookupField "max_fee_bps" c = some v → v.asU64 = none →
      ∃ fields, out = .obj fields ∧ lookupField "max_fee_bps" fields = some (.num 30)) ∧
    (∀ c out v, canonicalize_constraints (some c) = .ok out →
      lookupField "venue_allowlist" c = some v → v.asArr = none →
      ∃ fields, out = .obj fields ∧
        lookupField "venue_allowlist" fields = some (.arr [])) := by
  refine ⟨?_, fun c n h1 h2 => (constraints_bps_reject c n).1 h1 h2, ?_, ?_⟩
  · intro fs v hlev hdec
    simp only [canonicalize_derivatives]
    split
    · rfl
    · split
      · rfl
      · cases hc : (lookupField "collateral" fs).bind Json.asObj with
        | none => rfl
        | some c0 =>
          simp only [okOr_some, exceptBind_ok]
          cases hcc : canonicalize_collateral c0 with
          | error e => rfl
          | ok cc =>
            simp only [exceptBind_ok]
            cases hcons :
                canonicalize_constraints ((lookupField "constraints" fs).bind Json.asObj) with
            | error e => rfl
            | ok consC =>
              simp only [exceptBind_ok]
              cases hi : (lookupField "instrument" fs).bind Json.asStr with
              | none => rfl
              | some i0 =>
                simp only [okOr_some, exceptBind_ok]
                split
                · rfl
                · have hm : canonicalize_leverage fs = canonicalize_decimal v "1" "100" 2 := by
                    rw [canonicalize_leverage, hlev]
                  rw [hm]
                  cases hd : canonicalize_decimal v "1" "100" 2 with
                  | error e => rfl
                  | ok lv => rw [hd] at hdec; simp [Except.isOk, Except.toBool] at hdec
  · intro c out v hok hl ht
    obtain ⟨f, fu, sl, vl, hout, hf, -, -, -, -, -, -⟩ := constraints_ok_shape (some c) out hok
    refine ⟨_, hout, ?_⟩
    rw [show ((some c).bind (lookupField "max_fee_bps")) = lookupField "max_fee_bps" c
      from rfl, hl, Option.some_bind, ht, Option.getD_none] at hf
    subst hf
    rfl
  · intro c out v hok hl ht
    obtain ⟨f, fu, sl, vl, hout, -, -, -, -, -, -, hvl⟩ := constraints_ok_shape (some c) out hok
    refine ⟨_, hout, ?_⟩
    rw [show ((some c).bind (lookupField "venue_allowlist")) = lookupField "venue_allowlist" c
      from rfl, hl, Option.some_bind, ht, Option.map_none', Option.getD_none] at hvl
    subst hvl
    rfl

theorem optional_field_validation_amended_witness :
    (canonicalize_derivatives
      [("collateral", .obj [("token", .str "usdc.near"), ("chain", .str "near")]),
       ("instrument", .str "perp"), ("side", .str "long"), ("size", .str "1"),
       ("symbol", .str "ETH-USD"), ("leverage", .str "abc")]).isOk = false :=
  optional_field_validation_amended.1 _ (Json.str "abc") (by with_unfolding_all rfl)
    (by with_unfolding_all rfl)
/-- Success shape of `canonicalize_derivatives`: every validation step passed
and the canonical object is assembled from the normalized components. -/
theorem derivatives_ok_shape (fs : List (String × Json)) (out : Json)
    (h : canonicalize_derivatives fs = .ok out) :
    ∃ c0 cc consC i0 lev opt s0 szV szC sym0,
      (lookupField "collateral" fs).bind Json.asObj = some c0 ∧
      canonicalize_collateral c0 = .ok cc ∧
      canonicalize_constraints ((lookupField "constraints" fs).bind Json.asObj) = .ok consC ∧
      (lookupField "instrument" fs).bind Json.asStr = some i0 ∧
      (["perp", "option"].contains i0.trim.toLower) = true ∧
      canonicalize_leverage fs = .ok lev ∧
      canonicalize_option_field i0.trim.toLower fs = .ok opt ∧
      (lookupField "side" fs).bind Json.asStr = some s0 ∧
      (["long", "short", "buy", "sell"].contains s0.trim.toLower) = true ∧
      lookupField "size" fs = some szV ∧
      canonicalize_decimal szV "0.00000001" "1000000" 8 = .ok szC ∧
      (lookupField "symbol" fs).bind Json.asStr = some sym0 ∧
      (sym0.trim.toUpper.contains '-') = true ∧
      out = .obj
        [("collateral", cc), ("constraints", consC), ("instrument", .str i0.trim.toLower),
         ("leverage", lev), ("option", opt), ("side", .str s0.trim.toLower),
         ("size", szC), ("symbol", .str sym0.trim.toUpper)] := by
  simp only [canonicalize_derivatives] at h
  split at h
  · exact absurd h (by simp)
  · split at h
    · exact absurd h (by simp)
    · cases hc : (lookupField "collateral" fs).bind Json.asObj with
      | none => rw [hc] at h; exact absurd h (by simp [okOr])
      | some c0 =>
        rw [hc] at h
        simp only [okOr_some, exceptBind_ok] at h
        cases hcc : canonicalize_collateral c0 with
        | error e => rw [hcc] at h; exact absurd h (by simp)
        | ok cc =>
          rw [hcc] at h
          simp only [exceptBind_ok] at h
          cases hcons :
              canonicalize_constraints ((lookupField "constraints" fs).bind Json.asObj) with
          | error e => rw [hcons] at h; exact absurd h (by simp)
          | ok consC =>
            rw [hcons] at h
            simp only [exceptBind_ok] at h
            cases hi : (lookupField "instrument" fs).bind Json.asStr with
            | none => rw [hi] at h; exact absurd h (by simp [okOr])
            | some i0 =>
              rw [hi] at h
              simp only [okOr_some, exceptBind_ok] at h
              split at h
              · exact absurd h (by simp)
              · rename_i hcond
                cases hlv : canonicalize_leverage fs with
                | error e => rw [hlv] at h; exact absurd h (by simp)
                | ok lev =>
                  rw [hlv] at h
                  simp only [exceptBind_ok] at h
                  cases hopt : canonicalize_option_field i0.trim.toLower fs with
                  | error e => rw [hopt] at h; exact absurd h (by simp)
                  | ok opt =>
                    rw [hopt] at h
                    simp only [exceptBind_ok] at h
                    cases hs : (lookupField "side" fs).bind Json.asStr with
                    | none => rw [hs] at h; exact absurd h (by simp [okOr])
                    | some s0 =>
                      rw [hs] at h
                      simp only [okOr_some, exceptBind_ok] at h
                      split at h
                      · exact absurd h (by simp)
                      · rename_i hside
                        cases hsz : lookupField "size" fs with
                        | none => rw [hsz] at h; exact absurd h (by simp [okOr])
                        | some szV =>
                          rw [hsz] at h
                          simp only [okOr_some, exceptBind_ok] at h
                          cases hszc : canonicalize_decimal szV "0.00000001" "1000000" 8 with
                          | error e => rw [hszc] at h; exact absurd h (by simp)
                          | ok szC =>
                            rw [hszc] at h
                            simp only [exceptBind_ok] at h
                            cases hsym : (lookupField "symbol" fs).bind Json.asStr with
                            | none => rw [hsym] at h; exact absurd h (by simp [okOr])
                            | some sym0 =>
                              rw [hsym] at h
                              simp only [okOr_some, exceptBind_ok] at h
                              split at h
                              · exact absurd h (by simp)
                              · rename_i hsymb
                                simp only [Except.ok.injEq] at h
                                refine ⟨c0, cc, consC, i0, lev, opt, s0, szV, szC, sym0,
                                  rfl, hcc, rfl, rfl, ?_, rfl, hopt, rfl, ?_, rfl, hszc, rfl, ?_,
                                  h.symm⟩
                                · simpa only [Bool.not_eq_true, Bool.not_eq_false'] using hcond
                                · simpa only [Bool.not_eq_true, Bool.not_eq_false'] using hside
                                · simpa only [Bool.not_eq_true, Bool.not_eq_false'] using hsymb
/-- C3 counterexample: a perp intent carrying an `option` object is accepted
("option" is among the allowed derivatives keys regardless of instrument),
refuting "the input option object is present if and only if the normalized
instrument equals option". -/
theorem option_iff_instrument_cex :
    (canonicalize_derivatives
      [("collateral", .obj [("token", .str "usdc.near"), ("chain", .str "near")]),
       ("instrument", .str "perp"), ("side", .str "long"), ("size", .str "1"),
       ("symbol", .str "ETH-USD"),
       ("option", .obj [("kind", .str "call"), ("strike", .str "100"),
                        ("expiry", .str "2024-01-23T11:00:00Z")])]).isOk = true ∧
    (lookupField "option"
      [("collateral", Json.obj [("token", .str "usdc.near"), ("chain", .str "near")]),
       ("instrument", .str "perp"), ("side", .str "long"), ("size", .str "1"),
       ("symbol", .str "ETH-USD"),
       ("option", .obj [("kind", .str "call"), ("strike", .str "100"),
                        ("expiry", .str "2024-01-23T11:00:00Z")])]).isSome = true ∧
    ((lookupField "instrument"
      [("collateral", Json.obj [("token", .str "usdc.near"), ("chain", .str "near")]),
       ("instrument", .str "perp"), ("side", .str "long"), ("size", .str "1"),
       ("symbol", .str "ETH-USD"),
       ("option", .obj [("kind", .str "call"), ("strike", .str "100"),
                        ("expiry", .str "2024-01-23T11:00:00Z")])]).bind Json.asStr).map
        (fun s => s.trim.toLower) = some "perp" := by
  refine ⟨?_, by with_unfolding_all rfl, by with_unfolding_all rfl⟩
  with_unfolding_all rfl

/-- C3 (amended): the option object is mandatory (and canonicalized) when the
normalized instrument is "option" — an option intent without it is rejected —
and the canonical `option` field is the canonicalized object then and
explicitly null otherwise; an option object supplied alongside a non-option
instrument is ignored, not rejected. -/
theorem option_field_amended :
    ∀ fs out, canonicalize_derivatives fs = .ok out →
      ∃ fields i0, out = .obj fields ∧
        (lookupField "instrument" fs).bind Json.asStr = some i0 ∧
        lookupField "instrument" fields = some (.str i0.trim.toLower) ∧
        (i0.trim.toLower = "option" →
          ∃ o0 oc, (lookupField "option" fs).bind Json.asObj = some o0 ∧
            canonicalize_option o0 = .ok oc ∧ lookupField "option" fields = some oc) ∧
        (i0.trim.toLower ≠ "option" → lookupField "option" fields = some Json.null) := by
  intro fs out h
  obtain ⟨c0, cc, consC, i0, lev, opt, s0, szV, szC, sym0, hc, hcc, hcons, hi, hmem, hlv, hopt,
    hs, hside, hsz, hszc, hsym, hsymb, hout⟩ := derivatives_ok_shape fs out h
  refine ⟨_, i0, hout, hi, rfl, ?_, ?_⟩
  · intro hio
    rw [canonicalize_option_field, if_pos hio] at hopt
    cases ho : (lookupField "option" fs).bind Json.asObj with
    | none => rw [ho] at hopt; exact absurd hopt (by simp)
    | some o0 =>
      rw [ho] at hopt
      exact ⟨o0, opt, rfl, hopt, rfl⟩
  · intro hio
    rw [canonicalize_option_field, if_neg hio] at hopt
    have : opt = Json.null := by
      cases hopt
      rfl
    rw [this]
    rfl

theorem option_field_amended_witness :
    ∃ fields i0,
      (Json.obj
        [("collateral", .obj [("chain", .str "near"), ("token", .str "usdc.near")]),
         ("constraints", .obj
           [("max_fee_bps", .num 30), ("max_funding_bps_8h", .num 50),
            ("max_slippage_bps", .num 100), ("venue_allowlist", .arr [])]),
         ("instrument", .str "option"), ("leverage", .str "1"),
         ("option", .obj
           [("expiry", .str "2024-01-23T11:00:00Z"), ("kind", .str "call"),
            ("strike", .str "100")]),
         ("side", .str "long"), ("size", .str "1"),
         ("symbol", .str "ETH-USD")]) = .obj fields ∧
      (lookupField "instrument"
        [("collateral", Json.obj [("token", .str "usdc.near"), ("chain", .str "near")]),
         ("instrument", .str "option"), ("side", .str "long"), ("size", .str "1"),
         ("symbol", .str "ETH-USD"),
         ("option", .obj [("kind", .str "call"), ("strike", .str "100"),
                          ("expiry", .str "2024-01-23T11:00:00Z")])]).bind Json.asStr =
        some i0 ∧
      lookupField "instrument" fields = some (.str i0.trim.toLower) ∧
      (i0.trim.toLower = "option" →
        ∃ o0 oc,
          (lookupField "option"
            [("collateral", Json.obj [("token", .str "usdc.near"), ("chain", .str "near")]),
             ("instrument", .str "option"), ("side", .str "long"), ("size", .str "1"),
             ("symbol", .str "ETH-USD"),
             ("option", .obj [("kind", .str "call"), ("strike", .str "100"),
                              ("expiry", .str "2024-01-23T11:00:00Z")])]).bind Json.asObj =
            some o0 ∧
          canonicalize_option o0 = .ok oc ∧ lookupField "option" fields = some oc) ∧
      (i0.trim.toLower ≠ "option" → lookupField "option" fields = some Json.null) :=
  option_field_amended
    [("collateral", Json.obj [("token", .str "usdc.near"), ("chain", .str "near")]),
     ("instrument", .str "option"), ("side", .str "long"), ("size", .str "1"),
     ("symbol", .str "ETH-USD"),
     ("option", .obj [("kind", .str "call"), ("strike", .str "100"),
                      ("expiry", .str "2024-01-23T11:00:00Z")])] _
    (by with_unfolding_all rfl)
set_option maxHeartbeats 2000000 in
/-- C6: the decimal normalizer rejects scientific notation, improper leading
zeros, an explicit positive sign, negative literals, unparsable literals,
finite values outside the inclusive bounds (and positive infinity), and
literals whose fractional byte count exceeds the precision. -/
theorem canonicalize_decimal_rejections :
    ∀ value min max precision s, decimalStr value = some s →
      ((s.contains 'e' || s.contains 'E') = true →
        (canonicalize_decimal value min max precision).isOk = false) ∧
      ((s.length > 1 && s.startsWith "0" && !s.startsWith "0.") = true →
        (canonicalize_decimal value min max precision).isOk = false) ∧
      (s.startsWith "+" = true →
        (canonicalize_decimal value min max precision).isOk = false) ∧
      (s.startsWith "-" = true →
        (canonicalize_decimal value min max precision).isOk = false) ∧
      (parseFloat s = none →
        (canonicalize_decimal value min max precision).isOk = false) ∧
      (∀ q mn mx, parseFloat s = some (.fin q) → parseFloat min = some (.fin mn) →
        parseFloat max = some (.fin mx) → (q < mn ∨ mx < q) →
        (canonicalize_decimal value min max precision).isOk = false) ∧
      (∀ mx, parseFloat s = some (.inf false) → parseFloat max = some (.fin mx) →
        (canonicalize_decimal value min max precision).isOk = false) ∧
      ((s.posOf '.' ≠ s.endPos ∧ s.utf8ByteSize - (s.posOf '.').byteIdx - 1 > precision) →
        (canonicalize_decimal value min max precision).isOk = false) := by
  intro value min max precision s hds
  simp only [canonicalize_decimal, hds]
  refine ⟨fun h1 => ?_, fun h2 => ?_, fun h3 => ?_, fun h4 => ?_, fun h5 => ?_,
    fun q mn mx hq hmn hmx hor => ?_, fun mx hq hmx => ?_, fun h8 => ?_⟩
  · rw [if_pos h1]; rfl
  · split_ifs <;> rfl
  · split_ifs <;> rfl
  · split_ifs <;> rfl
  · split_ifs <;> first | rfl | (rw [h5]; rfl)
  · split_ifs <;> try rfl
    all_goals
      split
      · rfl
      · rename_i parsed heq
        rw [hq] at heq
        injection heq with heq
        subst heq
        split
        · rename_i mnv mxv heq1 heq2
          rw [hmn] at heq1
          rw [hmx] at heq2
          injection heq1 with heq1
          injection heq2 with heq2
          subst heq1
          subst heq2
          have hcond : (fvLt (FVal.fin q) (FVal.fin mn) || fvGt (FVal.fin q) (FVal.fin mx)) =
              true := by
            rcases hor with h | h <;> simp [fvLt, fvGt, h]
          rw [if_pos hcond]
          rfl
        · rfl
  · split_ifs <;> try rfl
    all_goals
      split
      · rfl
      · rename_i parsed heq
        rw [hq] at heq
        injection heq with heq
        subst heq
        split
        · rename_i mnv mxv heq1 heq2
          rw [hmx] at heq2
          injection heq2 with heq2
          subst heq2
          have hcond : (fvLt (FVal.inf false) mnv || fvGt (FVal.inf false) (FVal.fin mx)) =
              true := by
            simp [fvGt, fvLt]
          rw [if_pos hcond]
          rfl
        · rfl
  · split_ifs <;> first
      | rfl
      | (exact absurd h8 (by assumption))
      | (split
         · rfl
         · split
           · split_ifs <;> rfl
           · rfl)

theorem canonicalize_decimal_rejections_witness :
    decimalStr (Json.str "1e6") = some "1e6" ∧
    (canonicalize_decimal (Json.str "1e6") "0" "10000000" 8).isOk = false :=
  ⟨by with_unfolding_all rfl,
    (canonicalize_decimal_rejections (Json.str "1e6") "0" "10000000" 8 "1e6"
      (by with_unfolding_all rfl)).1 (by with_unfolding_all rfl)⟩
theorem timestampFormatCheck_ok (n r : String) :
    timestampFormatCheck n = .ok r ↔
      r = n ∧ n.utf8ByteSize = 20 ∧ ((n.dropRight 1).splitOn "T").length = 2 := by
  simp only [timestampFormatCheck]
  split_ifs with h1 h2
  · constructor
    · intro h; exact absurd h (by simp)
    · rintro ⟨-, hco, -⟩; exact absurd hco h1
  · constructor
    · intro h; exact absurd h (by simp)
    · rintro ⟨-, -, hco⟩; exact absurd hco h2
  · rw [not_not] at h1 h2
    constructor
    · intro h
      simp only [Except.ok.injEq] at h
      exact ⟨h.symm, h1, h2⟩
    · rintro ⟨h, -, -⟩
      rw [h]

/-- C4 counterexample: "1999-12-31T11:00:00Z" ends in 'Z', carries no
timezone offset (its '-' characters are date separators), and is exactly 20
bytes split by a single 'T' into a 10-byte date and 9-byte time-plus-'Z' —
the claim says normalization succeeds — yet the source's offset heuristic
(`contains('-') && !starts_with("20")`) rejects it. -/
theorem normalize_timestamp_cex :
    normalize_timestamp "1999-12-31T11:00:00Z" =
      .error "Timestamp must not have timezone offset: 1999-12-31T11:00:00Z" ∧
    "1999-12-31T11:00:00Z".trim = "1999-12-31T11:00:00Z" ∧
    "1999-12-31T11:00:00Z".endsWith "Z" = true ∧
    "1999-12-31T11:00:00Z".contains '+' = false ∧
    "1999-12-31T11:00:00Z".contains '.' = false ∧
    "1999-12-31T11:00:00Z".utf8ByteSize = 20 ∧
    "1999-12-31T11:00:00Z".splitOn "T" = ["1999-12-31", "11:00:00Z"] := by
  refine ⟨?_, ?_, ?_, ?_, ?_, ?_, ?_⟩ <;> with_unfolding_all rfl

/-- C4 (amended): `normalize_timestamp` succeeds exactly when, after
trimming, the string ends in `'Z'`, contains no `'+'`, contains `'-'` only if
it starts with `"20"`, and stripping an optional fractional component
(exactly one `'.'`, keeping the prefix plus `'Z'`) leaves a 20-byte string
with exactly one `'T'` among its first 19 bytes; the result is that stripped
whole-second form.  (The `'T'` position and the digit layout are not
checked, and the offset heuristic keys on the `"20"` prefix.) -/
theorem normalize_timestamp_amended :
    ∀ ts r : String,
      normalize_timestamp ts = .ok r ↔
        (ts.trim.endsWith "Z" = true ∧
         ts.trim.contains '+' = false ∧
         (ts.trim.contains '-' = true → ts.trim.startsWith "20" = true) ∧
         ((ts.trim.contains '.' = true ∧
            (∃ a b, ts.trim.splitOn "." = [a, b] ∧ r = a ++ "Z")) ∨
          (ts.trim.contains '.' = false ∧ r = ts.trim)) ∧
         r.utf8ByteSize = 20 ∧ ((r.dropRight 1).splitOn "T").length = 2) := by
  intro ts r
  constructor
  · intro h
    simp only [normalize_timestamp] at h
    split_ifs at h with h1 h2 hdot
    · rw [Bool.not_eq_true, Bool.not_eq_false'] at h1
      simp only [Bool.or_eq_true, Bool.and_eq_true, Bool.not_eq_true', not_or,
        not_and_or] at h2
      obtain ⟨h2p, h2m⟩ := h2
      refine ⟨h1, by simpa using h2p, ?_, ?_⟩
      · intro hm
        rcases h2m with hh | hh
        · exact absurd hm (by simp [hh])
        · simpa using hh
      · cases hsp : ts.trim.splitOn "." with
        | nil => rw [hsp] at h; exact absurd h (by simp)
        | cons a t =>
          cases t with
          | nil => rw [hsp] at h; exact absurd h (by simp)
          | cons b t2 =>
            cases t2 with
            | nil =>
              rw [hsp] at h
              rw [timestampFormatCheck_ok] at h
              obtain ⟨hr, hlen, hT⟩ := h
              subst hr
              exact ⟨Or.inl ⟨hdot, a, b, rfl, rfl⟩, hlen, hT⟩
            | cons c t3 => rw [hsp] at h; exact absurd h (by simp)
    · rw [Bool.not_eq_true, Bool.not_eq_false'] at h1
      simp only [Bool.or_eq_true, Bool.and_eq_true, Bool.not_eq_true', not_or,
        not_and_or] at h2
      obtain ⟨h2p, h2m⟩ := h2
      rw [timestampFormatCheck_ok] at h
      obtain ⟨hr, hlen, hT⟩ := h
      subst hr
      refine ⟨h1, by simpa using h2p, ?_, Or.inr ⟨by simpa using hdot, rfl⟩, hlen, hT⟩
      intro hm
      rcases h2m with hh | hh
      · exact absurd hm (by simp [hh])
      · simpa using hh
  · rintro ⟨hz, hp, hm, hstrip, hlen, hT⟩
    have h2 : (ts.trim.contains '+' || (ts.trim.contains '-' && !ts.trim.startsWith "20")) =
        false := by
      rw [hp]
      cases hmm : ts.trim.contains '-' with
      | false => rfl
      | true => simp [hm hmm]
    simp only [normalize_timestamp, hz, h2, Bool.not_true,
      if_neg (by simp : ¬(false : Bool) = true)]
    rcases hstrip with ⟨hdot, a, b, hsp, hr⟩ | ⟨hdot, hr⟩ <;> rw [hdot] <;> subst hr
    · rw [if_pos rfl, hsp, timestampFormatCheck_ok]
      exact ⟨rfl, hlen, hT⟩
    · rw [if_neg (by simp), timestampFormatCheck_ok]
      exact ⟨rfl, hlen, hT⟩

theorem normalize_timestamp_amended_witness :
    normalize_timestamp "2024-01-23T11:00:00.123Z" = .ok "2024-01-23T11:00:00Z" :=
  (normalize_timestamp_amended "2024-01-23T11:00:00.123Z" "2024-01-23T11:00:00Z").mpr
    ⟨by with_unfolding_all rfl, by with_unfolding_all rfl,
     fun _ => by with_unfolding_all rfl,
     Or.inl ⟨by with_unfolding_all rfl,
       "2024-01-23T11:00:00", "123Z", by with_unfolding_all rfl, rfl⟩,
     by with_unfolding_all rfl, by with_unfolding_all rfl⟩
/-- C9: `execute_intents` gates every intent on a prior simulation record —
missing record, stale record (older than the 300-second window), or a
recomputed simulation hash differing from the stored one each put the intent
in the failed list with its reason code and leave the stored logs untouched;
only an intent passing all three checks is executed and logged.
`log_execution` aborts (no state change) exactly when no successful
simulation result is recorded for the hash. -/
theorem simulation_gating :
    (∀ (h : String → String) (now : Nat) (intent : Json) (st : ExecState)
        (executed : List String) (failed : List Json) (ih : String),
      computeIntentHash h intent = .ok ih →
      (lookupMap ih st.simulation_results = none →
        execStep h now intent st executed failed =
          .ok (st, executed, failed ++ [failEntry ih "SIMULATION_REQUIRED"
            "Intent must be simulated before execution"])) ∧
      (∀ sd, lookupMap ih st.simulation_results = some sd →
        now - sd.timestamp > simulationFreshnessWindow →
        execStep h now intent st executed failed =
          .ok (st, executed, failed ++ [failEntry ih "SIMULATION_EXPIRED"
            "Simulation older than 5 minutes"])) ∧
      (∀ sd, lookupMap ih st.simulation_results = some sd →
        ¬now - sd.timestamp > simulationFreshnessWindow →
        computeSimulationHash h ih sd ≠ sd.simulation_hash →
        execStep h now intent st executed failed =
          .ok (st, executed, failed ++ [failEntry ih "SIMULATION_HASH_MISMATCH"
            "Intent parameters changed since simulation"])) ∧
      (∀ sd, lookupMap ih st.simulation_results = some sd →
        ¬now - sd.timestamp > simulationFreshnessWindow →
        computeSimulationHash h ih sd = sd.simulation_hash →
        execStep h now intent st executed failed =
          .ok ({ st with
              execution_logs := insertMap ih
                { intent_hash := ih
                  status := "executed"
                  venue := sd.venue
                  fill_price := sd.estimated_fill
                  filled_size := "1"
                  fees_paid := sd.estimated_fees
                  chain_signature := none
                  external_tx := none
                  ts_simulated := sd.timestamp
                  ts_executed := now } st.execution_logs },
            executed ++ [ih], failed))) ∧
    (∀ simResults logs ih entry,
      (log_execution simResults logs ih entry = none ↔
        has_successful_simulation simResults ih = false) ∧
      (has_successful_simulation simResults ih = true →
        log_execution simResults logs ih entry = some (insertMap ih entry logs))) := by
  constructor
  · intro h now intent st executed failed ih hih
    refine ⟨fun hnone => ?_, fun sd hsome hexp => ?_, fun sd hsome hfresh hne => ?_,
      fun sd hsome hfresh heq => ?_⟩
    · simp only [execStep, hih, exceptBind_ok, hnone]
    · simp only [execStep, hih, exceptBind_ok, hsome]
      rw [if_pos hexp]
    · simp only [execStep, hih, exceptBind_ok, hsome]
      rw [if_neg hfresh, if_pos hne]
    · simp only [execStep, hih, exceptBind_ok, hsome]
      rw [if_neg hfresh, if_neg (by simpa using heq)]
  · intro simResults logs ih entry
    constructor
    · simp only [log_execution]
      split_ifs with hs
      · simp [hs]
      · simpa using hs
    · intro hs
      simp only [log_execution, if_pos hs]

theorem simulation_gating_witness :
    execStep (fun _ => "H") 0
      (Json.obj
        [("version", .str "1.0.0"), ("intent_type", .str "derivatives"),
         ("derivatives", .obj
           [("instrument", .str "perp"), ("symbol", .str "ETH-USD"),
            ("side", .str "long"), ("size", .str "1"),
            ("collateral", .obj [("token", .str "usdc.near"), ("chain", .str "near")])]),
         ("signer_id", .str "alice.near"), ("deadline", .str "2024-01-23T11:00:00Z"),
         ("nonce", .str "1")])
      ⟨[], []⟩ [] [] =
      .ok (⟨[], []⟩, [],
        [failEntry "H" "SIMULATION_REQUIRED" "Intent must be simulated before execution"]) :=
  (simulation_gating.1 (fun _ => "H") 0 _ ⟨[], []⟩ [] [] "H"
    (by with_unfolding_all rfl)).1 rfl
theorem asStr_sortKeys (v : Json) : (sortKeys v).asStr = v.asStr := by
  cases v <;> rfl

theorem asU64_sortKeys (v : Json) : (sortKeys v).asU64 = v.asU64 := by
  cases v <;> rfl

theorem asArr_sortKeys (v : Json) : (sortKeys v).asArr = (v.asArr).map sortKeysList := by
  cases v <;> rfl

theorem asObj_sortKeys (v : Json) :
    (sortKeys v).asObj = (v.asObj).map (fun fs => sortFields (sortKeysFields fs)) := by
  cases v <;> rfl

theorem decimalStr_sortKeys (v : Json) : decimalStr (sortKeys v) = decimalStr v := by
  cases v <;> rfl

theorem canonicalize_decimal_sortKeys (v : Json) (mn mx : String) (p : Nat) :
    canonicalize_decimal (sortKeys v) mn mx p = canonicalize_decimal v mn mx p := by
  simp only [canonicalize_decimal, decimalStr_sortKeys]

theorem normalize_nonce_sortKeys (v : Json) :
    normalize_nonce (sortKeys v) = normalize_nonce v := by
  cases v <;> rfl

theorem keys_sortKeysFields (fs : List (String × Json)) :
    (sortKeysFields fs).map (·.1) = fs.map (·.1) := by
  induction fs with
  | nil => rfl
  | cons p t ih => cases p; simp [sortKeysFields, ih]

theorem insertField_perm (a : String × Json) :
    ∀ l : List (String × Json), (insertField a l).Perm (a :: l) := by
  intro l
  induction l with
  | nil => rfl
  | cons b t ih =>
    simp only [insertField]
    split_ifs
    · exact List.Perm.refl _
    · exact (ih.cons b).trans (List.Perm.swap a b t)

theorem sortFields_perm (l : List (String × Json)) : (sortFields l).Perm l := by
  induction l with
  | nil => rfl
  | cons a t ih => exact (insertField_perm a (sortFields t)).trans (ih.cons a)

theorem sortKeysFields_perm_keys (fs : List (String × Json)) :
    ((sortFields (sortKeysFields fs)).map (·.1)).Perm (fs.map (·.1)) := by
  rw [show (fs.map (·.1)) = (sortKeysFields fs).map (·.1) from (keys_sortKeysFields fs).symm]
  exact (sortFields_perm (sortKeysFields fs)).map (·.1)

theorem sortStrings_keys_sortFields (fs : List (String × Json)) :
    sortStrings ((sortFields (sortKeysFields fs)).map (·.1)) =
      sortStrings (fs.map (·.1)) :=
  sortStrings_eq_of_perm (sortKeysFields_perm_keys fs)

theorem lookupField_sortKeysFields (k : String) (fs : List (String × Json)) :
    lookupField k (sortKeysFields fs) = (lookupField k fs).map sortKeys := by
  induction fs with
  | nil => rfl
  | cons p t ih =>
    cases p with
    | mk k' v =>
      simp only [sortKeysFields, lookupField, List.find?]
      cases hk : (k' == k) with
      | true => simp
      | false => simpa [lookupField] using ih

theorem lookupField_perm {l1 l2 : List (String × Json)} (h : l1.Perm l2)
    (nd : (l1.map (·.1)).Nodup) (k : String) :
    lookupField k l1 = lookupField k l2 := by
  induction h with
  | nil => rfl
  | cons x h ih =>
    simp only [List.map_cons, List.nodup_cons] at nd
    simp only [lookupField, List.find?]
    cases hx : (x.1 == k) with
    | true => simp
    | false => simpa [lookupField] using ih nd.2
  | swap x y l =>
    simp only [List.map_cons, List.nodup_cons, List.mem_cons, List.mem_map] at nd
    have hxy : y.1 ≠ x.1 := fun hc => nd.1 (Or.inl hc)
    simp only [lookupField, List.find?]
    cases hx : (y.1 == k) with
    | true =>
      have : x.1 ≠ k := by
        intro hc
        exact hxy ((eq_of_beq hx).trans hc.symm)
      rw [show (x.1 == k) = false by simpa using this]
    | false => cases hy : (x.1 == k) <;> simp
  | trans h1 h2 ih1 ih2 =>
    have nd2 := ((h1.map (·.1)).nodup_iff).mp nd
    exact (ih1 nd).trans (ih2 nd2)

theorem lookupField_norm (k : String) (fs : List (String × Json))
    (nd : (fs.map (·.1)).Nodup) :
    lookupField k (sortFields (sortKeysFields fs)) = (lookupField k fs).map sortKeys := by
  have nd' : ((sortKeysFields fs).map (·.1)).Nodup := by
    rw [keys_sortKeysFields]; exact nd
  rw [← lookupField_sortKeysFields]
  exact lookupField_perm (sortFields_perm (sortKeysFields fs)) (by
    rwa [((sortFields_perm (sortKeysFields fs)).map (·.1)).nodup_iff]) k

theorem nodupKeysB_iff (l : List String) : nodupKeysB l = true ↔ l.Nodup := by
  induction l with
  | nil => simp [nodupKeysB]
  | cons k ks ih =>
    simp only [nodupKeysB, Bool.and_eq_true, Bool.not_eq_true', List.nodup_cons, ih]
    constructor
    · rintro ⟨h1, h2⟩
      refine ⟨fun hc => ?_, h2⟩
      have h3 : ks.contains k = true := List.elem_eq_true_of_mem hc
      rw [h3] at h1
      cases h1
    · rintro ⟨h1, h2⟩
      refine ⟨?_, h2⟩
      cases hc : ks.contains k with
      | false => rfl
      | true => exact absurd (List.mem_of_elem_eq_true hc) h1
theorem nodupRec_obj {fs : List (String × Json)} (h : nodupRec (.obj fs) = true) :
    (fs.map (·.1)).Nodup ∧ nodupRecFields fs = true := by
  simp only [nodupRec, Bool.and_eq_true] at h
  exact ⟨(nodupKeysB_iff _).mp h.1, h.2⟩

theorem nodupRecFields_lookup :
    ∀ {fs : List (String × Json)} {k : String} {v : Json},
      nodupRecFields fs = true → lookupField k fs = some v → nodupRec v = true := by
  intro fs
  induction fs with
  | nil => intro k v _ hl; cases hl
  | cons p t ih =>
    intro k v h hl
    cases p with
    | mk k' w =>
      simp only [nodupRecFields, Bool.and_eq_true] at h
      simp only [lookupField, List.find?] at hl
      cases hk : (k' == k) with
      | true =>
        rw [hk] at hl
        simp only [Option.map_some', Option.some.injEq] at hl
        exact hl ▸ h.1
      | false =>
        rw [hk] at hl
        exact ih h.2 hl

theorem bind_asStr_sortKeys (x : Option Json) :
    (x.map sortKeys).bind Json.asStr = x.bind Json.asStr := by
  cases x <;> simp [asStr_sortKeys]

theorem bind_asU64_sortKeys (x : Option Json) :
    (x.map sortKeys).bind Json.asU64 = x.bind Json.asU64 := by
  cases x <;> simp [asU64_sortKeys]

theorem bind_asArr_sortKeys (x : Option Json) :
    (x.map sortKeys).bind Json.asArr = (x.bind Json.asArr).map sortKeysList := by
  cases x <;> simp [asArr_sortKeys]

theorem bind_asObj_sortKeys (x : Option Json) :
    (x.map sortKeys).bind Json.asObj =
      (x.bind Json.asObj).map (fun fs => sortFields (sortKeysFields fs)) := by
  cases x <;> simp [asObj_sortKeys]

theorem filterMap_venue_sortKeysList (xs : List Json) :
    (sortKeysList xs).filterMap (fun v => (v.asStr).map (fun s => s.trim.toLower)) =
      xs.filterMap (fun v => (v.asStr).map (fun s => s.trim.toLower)) := by
  induction xs with
  | nil => rfl
  | cons x t ih => simp only [sortKeysList, List.filterMap_cons, asStr_sortKeys, ih]

theorem toOption_eq_some {x : Except String Json} {a : Json} :
    x.toOption = some a ↔ x = .ok a := by
  cases x <;> simp [Except.toOption]

theorem toOption_error {x : Except String Json} (e : String) (h : x = .error e) :
    x.toOption = none := by
  rw [h]; rfl

/-- Constraints canonicalization is invariant under recursive key sorting of
its input object. -/
theorem canonicalize_constraints_norm (co : Option (List (String × Json)))
    (nd : ∀ c, co = some c → (c.map (·.1)).Nodup) :
    canonicalize_constraints (co.map (fun c => sortFields (sortKeysFields c))) =
      canonicalize_constraints co := by
  cases co with
  | none => rfl
  | some c =>
    have ndc := nd c rfl
    have hlk : ∀ k, lookupField k (sortFields (sortKeysFields c)) =
        (lookupField k c).map sortKeys := fun k => lookupField_norm k c ndc
    simp only [canonicalize_constraints, Option.map_some', Option.some_bind, hlk,
      bind_asU64_sortKeys, bind_asArr_sortKeys, sortStrings_keys_sortFields]
    cases hX : (lookupField "venue_allowlist" c).bind Json.asArr with
    | none => rfl
    | some a => simp only [Option.map_some', Option.getD_some, filterMap_venue_sortKeysList]

/-- Collateral canonicalization agrees (success value and failure alike, up
to the error message) under recursive key sorting of its input object. -/
theorem canonicalize_collateral_norm (c : List (String × Json))
    (ndc : (c.map (·.1)).Nodup) :
    (canonicalize_collateral (sortFields (sortKeysFields c))).toOption =
      (canonicalize_collateral c).toOption := by
  have hlk : ∀ k, lookupField k (sortFields (sortKeysFields c)) =
      (lookupField k c).map sortKeys := fun k => lookupField_norm k c ndc
  simp only [canonicalize_collateral, hlk, bind_asStr_sortKeys, sortStrings_keys_sortFields]
  split_ifs with h
  · rfl
  · rfl

/-- Option-object canonicalization agrees under recursive key sorting. -/
theorem canonicalize_option_norm (c : List (String × Json))
    (ndc : (c.map (·.1)).Nodup) :
    (canonicalize_option (sortFields (sortKeysFields c))).toOption =
      (canonicalize_option c).toOption := by
  have hlk : ∀ k, lookupField k (sortFields (sortKeysFields c)) =
      (lookupField k c).map sortKeys := fun k => lookupField_norm k c ndc
  simp only [canonicalize_option, hlk, bind_asStr_sortKeys, sortStrings_keys_sortFields]
  cases hX : lookupField "strike" c with
  | none => simp only [Option.map_none']; split_ifs <;> rfl
  | some sv =>
    simp only [Option.map_some', okOr_some, exceptBind_ok, canonicalize_decimal_sortKeys]
    split_ifs <;> rfl
theorem nodup_of_bind_asObj {fs : List (String × Json)} {k : String}
    {o0 : List (String × Json)} (ndf : nodupRecFields fs = true)
    (h : (lookupField k fs).bind Json.asObj = some o0) :
    (o0.map (·.1)).Nodup ∧ nodupRecFields o0 = true := by
  cases hv : lookupField k fs with
  | none => rw [hv] at h; cases h
  | some v =>
    rw [hv, Option.some_bind] at h
    have hrec := nodupRecFields_lookup ndf hv
    cases v with
    | obj g =>
      simp only [Json.asObj, Option.some.injEq] at h
      subst h
      exact nodupRec_obj hrec
    | null => cases h
    | bool b => cases h
    | num n => cases h
    | str s => cases h
    | arr xs => cases h

theorem canonicalize_leverage_norm (fs : List (String × Json))
    (nd : (fs.map (·.1)).Nodup) :
    canonicalize_leverage (sortFields (sortKeysFields fs)) = canonicalize_leverage fs := by
  simp only [canonicalize_leverage, lookupField_norm _ _ nd]
  cases hX : lookupField "leverage" fs with
  | none => rfl
  | some v => simp only [Option.map_some', canonicalize_decimal_sortKeys]

theorem canonicalize_option_field_norm (instr : String) (fs : List (String × Json))
    (ndk : (fs.map (·.1)).Nodup) (ndf : nodupRecFields fs = true) :
    (canonicalize_option_field instr (sortFields (sortKeysFields fs))).toOption =
      (canonicalize_option_field instr fs).toOption := by
  simp only [canonicalize_option_field, lookupField_norm _ _ ndk, bind_asObj_sortKeys]
  split_ifs with h
  · cases hX : (lookupField "option" fs).bind Json.asObj with
    | none => rfl
    | some o0 =>
      simp only [Option.map_some']
      exact canonicalize_option_norm o0 (nodup_of_bind_asObj ndf hX).1
  · rfl

/-- Derivatives canonicalization agrees under recursive key sorting. -/
theorem canonicalize_derivatives_norm (fs : List (String × Json))
    (ndk : (fs.map (·.1)).Nodup) (ndf : nodupRecFields fs = true) :
    (canonicalize_derivatives (sortFields (sortKeysFields fs))).toOption =
      (canonicalize_derivatives fs).toOption := by
  have hlk : ∀ k, lookupField k (sortFields (sortKeysFields fs)) =
      (lookupField k fs).map sortKeys := fun k => lookupField_norm k fs ndk
  have hcons := canonicalize_constraints_norm ((lookupField "constraints" fs).bind Json.asObj)
    (fun c hc => (nodup_of_bind_asObj ndf hc).1)
  simp only [canonicalize_derivatives, hlk, bind_asObj_sortKeys, bind_asStr_sortKeys,
    sortStrings_keys_sortFields, canonicalize_leverage_norm fs ndk, hcons]
  split
  · rfl
  · split
    · rfl
    · cases hc : (lookupField "collateral" fs).bind Json.asObj with
      | none => rfl
      | some c0 =>
        simp only [Option.map_some', okOr_some, exceptBind_ok]
        have hcoll := canonicalize_collateral_norm c0 (nodup_of_bind_asObj ndf hc).1
        cases hcc : canonicalize_collateral c0 with
        | error e =>
          rw [hcc] at hcoll
          cases hcc' : canonicalize_collateral (sortFields (sortKeysFields c0)) with
          | error e2 => rfl
          | ok a => rw [hcc'] at hcoll; simp [Except.toOption] at hcoll
        | ok cc =>
          rw [hcc] at hcoll
          have h1 : canonicalize_collateral (sortFields (sortKeysFields c0)) = .ok cc :=
            toOption_eq_some.mp hcoll
          rw [h1]
          simp only [exceptBind_ok]
          cases hconsr :
              canonicalize_constraints ((lookupField "constraints" fs).bind Json.asObj) with
          | error e => rfl
          | ok consC =>
            simp only [exceptBind_ok]
            cases hi : (lookupField "instrument" fs).bind Json.asStr with
            | none => rfl
            | some i0 =>
              simp only [Option.map_some', okOr_some, exceptBind_ok]
              split_ifs with hins
              · rfl
              · cases hlv : canonicalize_leverage fs with
                | error e => rfl
                | ok lev =>
                  simp only [exceptBind_ok]
                  have hof := canonicalize_option_field_norm i0.trim.toLower fs ndk ndf
                  cases ho : canonicalize_option_field i0.trim.toLower fs with
                  | error e =>
                    rw [ho] at hof
                    cases ho' : canonicalize_option_field i0.trim.toLower
                        (sortFields (sortKeysFields fs)) with
                    | error e2 => rfl
                    | ok a => rw [ho'] at hof; simp [Except.toOption] at hof
                  | ok opt =>
                    rw [ho] at hof
                    have h2 : canonicalize_option_field i0.trim.toLower
                        (sortFields (sortKeysFields fs)) = .ok opt :=
                      toOption_eq_some.mp hof
                    rw [h2]
                    simp only [exceptBind_ok]
                    cases hs : (lookupField "side" fs).bind Json.asStr with
                    | none => rfl
                    | some s0 =>
                      simp only [okOr_some, exceptBind_ok]
                      split_ifs with hsd
                      · rfl
                      · cases hsz : lookupField "size" fs with
                        | none => rfl
                        | some szv =>
                          simp only [Option.map_some', okOr_some, exceptBind_ok,
                            canonicalize_decimal_sortKeys]
/-- Intent canonicalization agrees (same success tree, or both failing) when
the input's objects are recursively key-sorted. -/
theorem asObj_obj (fs : List (String × Json)) : (Json.obj fs).asObj = some fs := rfl

theorem canonicalize_intent_norm (v : Json) (h : nodupRec v = true) :
    (canonicalize_intent (sortKeys v)).toOption = (canonicalize_intent v).toOption := by
  cases v with
  | null => rfl
  | bool b => rfl
  | num n => rfl
  | str s => rfl
  | arr xs => rfl
  | obj fs =>
    obtain ⟨ndk, ndf⟩ := nodupRec_obj h
    have hlk : ∀ k, lookupField k (sortFields (sortKeysFields fs)) =
        (lookupField k fs).map sortKeys := fun k => lookupField_norm k fs ndk
    have hsk : sortKeys (.obj fs) = .obj (sortFields (sortKeysFields fs)) := rfl
    rw [hsk]
    simp only [canonicalize_intent, asObj_obj, okOr_some, exceptBind_ok, hlk,
      bind_asStr_sortKeys, bind_asObj_sortKeys, sortStrings_keys_sortFields]
    split_ifs with hkeys
    · rfl
    · cases hv : (lookupField "version" fs).bind Json.asStr with
      | none => rfl
      | some ver =>
        simp only [okOr_some, exceptBind_ok]
        split_ifs with hver
        · rfl
        · cases hit : (lookupField "intent_type" fs).bind Json.asStr with
          | none => rfl
          | some it =>
            simp only [okOr_some, exceptBind_ok]
            split_ifs with hit2
            · rfl
            · cases hder : (lookupField "derivatives" fs).bind Json.asObj with
              | none => rfl
              | some dfs =>
                simp only [Option.map_some', okOr_some, exceptBind_ok]
                cases hdl : (lookupField "deadline" fs).bind Json.asStr with
                | none => rfl
                | some dl =>
                  simp only [okOr_some, exceptBind_ok]
                  cases hts : normalize_timestamp dl with
                  | error e => rfl
                  | ok deadline =>
                    simp only [exceptBind_ok]
                    have hnd := nodup_of_bind_asObj ndf hder
                    have hdn := canonicalize_derivatives_norm dfs hnd.1 hnd.2
                    cases hdc : canonicalize_derivatives dfs with
                    | error e =>
                      rw [hdc] at hdn
                      cases hdc' :
                          canonicalize_derivatives (sortFields (sortKeysFields dfs)) with
                      | error e2 => rfl
                      | ok a => rw [hdc'] at hdn; simp [Except.toOption] at hdn
                    | ok derivC =>
                      rw [hdc] at hdn
                      have h2 : canonicalize_derivatives (sortFields (sortKeysFields dfs)) =
                          .ok derivC := toOption_eq_some.mp hdn
                      rw [h2]
                      simp only [exceptBind_ok]
                      cases hn : lookupField "nonce" fs with
                      | none => rfl
                      | some nv =>
                        simp only [Option.map_some', okOr_some, exceptBind_ok,
                          normalize_nonce_sortKeys]

/-- C1: two intent documents that are identical except for the order of keys
at any nesting level (equal `sortKeys` normal forms; JSON objects have no
duplicate keys) either both fail to canonicalize or produce the same
canonical tree — and hence the same digest, for any hash function over the
deterministic serialization. -/
theorem key_order_independence :
    ∀ a b : Json, nodupRec a = true → nodupRec b = true → sortKeys a = sortKeys b →
      (canonicalize_intent a).toOption = (canonicalize_intent b).toOption ∧
      ∀ h : String → String,
        (computeIntentHash h a).toOption = (computeIntentHash h b).toOption := by
  intro a b ha hb hk
  have h1 := canonicalize_intent_norm a ha
  have h2 := canonicalize_intent_norm b hb
  have hc : (canonicalize_intent a).toOption = (canonicalize_intent b).toOption := by
    rw [← h1, ← h2, hk]
  refine ⟨hc, fun h => ?_⟩
  simp only [computeIntentHash]
  cases hx : canonicalize_intent a with
  | error e =>
    cases hy : canonicalize_intent b with
    | error e2 => rfl
    | ok o => rw [hx, hy] at hc; simp [Except.toOption] at hc
  | ok o =>
    cases hy : canonicalize_intent b with
    | error e2 => rw [hx, hy] at hc; simp [Except.toOption] at hc
    | ok o2 =>
      rw [hx, hy] at hc
      simp only [Except.toOption, Option.some.injEq] at hc
      rw [hc]

theorem key_order_independence_witness :
    (canonicalize_intent (.obj
      [("version", .str "1.0.0"), ("intent_type", .str "derivatives"),
       ("derivatives", .obj
         [("instrument", .str "perp"), ("symbol", .str "ETH-USD"), ("side", .str "long"),
          ("size", .str "1"),
          ("collateral", .obj [("token", .str "usdc.near"), ("chain", .str "near")])]),
       ("signer_id", .str "alice.near"), ("deadline", .str "2024-01-23T11:00:00Z"),
       ("nonce", .str "1")])).toOption =
    (canonicalize_intent (.obj
      [("nonce", .str "1"), ("deadline", .str "2024-01-23T11:00:00Z"),
       ("signer_id", .str "alice.near"),
       ("derivatives", .obj
         [("collateral", .obj [("chain", .str "near"), ("token", .str "usdc.near")]),
          ("size", .str "1"), ("side", .str "long"), ("symbol", .str "ETH-USD"),
          ("instrument", .str "perp")]),
       ("intent_type", .str "derivatives"), ("version", .str "1.0.0")])).toOption :=
  (key_order_independence _ _ (by with_unfolding_all rfl) (by with_unfolding_all rfl)
    (by with_unfolding_all rfl)).1

/-- `Nat.digitChar` of a digit is a digit character. -/
theorem digitChar_isDigit {d : Nat} (h : d < 10) : (Nat.digitChar d).isDigit = true := by
  interval_cases d <;> rfl

/-- `Nat.digitChar` inverts to the digit value. -/
theorem digitChar_toNat {d : Nat} (h : d < 10) : (Nat.digitChar d).toNat - 48 = d := by
  interval_cases d <;> rfl

/-- A nonzero digit does not render as `'0'`. -/
theorem digitChar_ne_zero {d : Nat} (h1 : 1 ≤ d) (h2 : d < 10) : Nat.digitChar d ≠ '0' := by
  interval_cases d <;> decide

/-- A digit character is not a dot. -/
theorem isDigit_ne_dot {c : Char} (h : c.isDigit = true) : c ≠ '.' := by
  intro hc; rw [hc] at h; exact absurd h (by decide)

/-- A digit character is not a plus sign. -/
theorem isDigit_ne_plus {c : Char} (h : c.isDigit = true) : c ≠ '+' := by
  intro hc; rw [hc] at h; exact absurd h (by decide)

/-- A digit character is not a minus sign. -/
theorem isDigit_ne_minus {c : Char} (h : c.isDigit = true) : c ≠ '-' := by
  intro hc; rw [hc] at h; exact absurd h (by decide)

/-- Folding the digit-accumulation step from accumulator `a`. -/
theorem digitsVal_foldl (l : List Char) (a : Nat) :
    l.foldl (fun a c => 10 * a + (c.toNat - 48)) a = a * 10 ^ l.length + digitsVal l := by
  induction l generalizing a with
  | nil => simp [digitsVal]
  | cons c t ih =>
    simp only [List.foldl_cons, List.length_cons, digitsVal] at *
    rw [ih, ih (10 * 0 + (c.toNat - 48))]
    ring

/-- `digitsVal` across an append. -/
theorem digitsVal_append (l₁ l₂ : List Char) :
    digitsVal (l₁ ++ l₂) = digitsVal l₁ * 10 ^ l₂.length + digitsVal l₂ := by
  simp only [digitsVal, List.foldl_append]
  rw [digitsVal_foldl]
  rfl

/-- `digitsVal` of a reversed little-endian digit rendering is `ofDigits`. -/
theorem digitsVal_revMap (ds : List Nat) (h : ∀ d ∈ ds, d < 10) :
    digitsVal ((ds.map Nat.digitChar).reverse) = Nat.ofDigits 10 ds := by
  induction ds with
  | nil => rfl
  | cons d t ih =>
    simp only [List.map_cons, List.reverse_cons]
    rw [digitsVal_append]
    have hd : d < 10 := h d (List.mem_cons_self d t)
    have ht : ∀ x ∈ t, x < 10 := fun x hx => h x (List.mem_cons_of_mem d hx)
    rw [ih ht, Nat.ofDigits_cons]
    simp only [List.length_cons, List.length_nil, pow_one]
    have : digitsVal [Nat.digitChar d] = d := by
      simp only [digitsVal, List.foldl_cons, List.foldl_nil, Nat.mul_zero, Nat.zero_add]
      exact digitChar_toNat hd
    rw [this]
    ring

/-- `natStr` renders exactly the value. -/
theorem digitsVal_natStr (n : Nat) : digitsVal (natStr n) = n := by
  by_cases h : n = 0
  · subst h; rfl
  · rw [natStr, if_neg h,
      digitsVal_revMap _ (fun d hd => Nat.digits_lt_base (by norm_num) hd),
      Nat.ofDigits_digits]

/-- `natStr` is never empty. -/
theorem natStr_ne_nil (n : Nat) : natStr n ≠ [] := by
  rw [natStr]
  split
  · simp
  · simp only [ne_eq, List.reverse_eq_nil_iff, List.map_eq_nil_iff]
    exact Nat.digits_ne_nil_iff_ne_zero.mpr (by assumption)

/-- Every character of `natStr` is a digit. -/
theorem natStr_isDigits (n : Nat) : ∀ c ∈ natStr n, c.isDigit = true := by
  intro c hc
  rw [natStr] at hc
  split at hc
  · simp only [List.mem_singleton] at hc; subst hc; rfl
  · rw [List.mem_reverse] at hc
    obtain ⟨d, hd, rfl⟩ := List.mem_map.mp hc
    exact digitChar_isDigit (Nat.digits_lt_base (by norm_num) hd)

/-- `splitDot` splits at the first dot. -/
theorem splitDot_append {l₁ l₂ : List Char} (h : '.' ∉ l₁) :
    splitDot (l₁ ++ '.' :: l₂) = (l₁, some l₂) := by
  induction l₁ with
  | nil => simp [splitDot]
  | cons c t ih =>
    have hne : ¬ c = '.' := fun hc => h (by rw [← hc]; exact List.mem_cons_self c t)
    have ht : '.' ∉ t := fun hm => h (List.mem_cons_of_mem c hm)
    simp only [List.cons_append, splitDot, if_neg hne, List.append_eq, ih ht]

/-- `parseMantissa` on digits-dot-digits yields the exact value. -/
theorem parseMantissa_append {l₁ l₂ : List Char} (h1 : '.' ∉ l₁)
    (hd1 : isDigits l₁ = true) (hd2 : isDigits l₂ = true) (hne : l₁ ≠ []) :
    parseMantissa (l₁ ++ '.' :: l₂) =
      some ((digitsVal l₁ : ℚ) + (digitsVal l₂ : ℚ) / 10 ^ l₂.length) := by
  simp only [parseMantissa, splitDot_append h1]
  rw [if_pos ⟨Or.inl hne, hd1, hd2⟩]

/-- A divisor of a power of ten divides the power of ten of its own exponent. -/
theorem dvd_ten_pow_self : ∀ n : Nat, (∃ L, n ∣ 10 ^ L) → n ∣ 10 ^ n := by
  intro n
  induction n using Nat.strong_induction_on with
  | _ n ih =>
    rintro ⟨L, hL⟩
    rcases Nat.lt_or_ge n 2 with h2 | h2
    · interval_cases n
      · exact absurd (Nat.eq_zero_of_zero_dvd hL) (Nat.pos_iff_ne_zero.mp (pow_pos (by norm_num) L))
      · exact one_dvd _
    · by_cases hd2 : 2 ∣ n
      · obtain ⟨m, rfl⟩ := hd2
        have hm1 : 1 ≤ m := by omega
        have hmn : m < 2 * m := by omega
        have hm10 : m ∣ 10 ^ m := ih m hmn ⟨L, dvd_trans (dvd_mul_left m 2) hL⟩
        calc 2 * m ∣ 2 * 10 ^ m := mul_dvd_mul_left 2 hm10
          _ ∣ 10 * 10 ^ m := mul_dvd_mul_right (by norm_num) _
          _ = 10 ^ (m + 1) := by rw [pow_succ]; ring
          _ ∣ 10 ^ (2 * m) := pow_dvd_pow 10 (by omega)
      · by_cases hd5 : 5 ∣ n
        · obtain ⟨m, rfl⟩ := hd5
          have hm1 : 1 ≤ m := by omega
          have hmn : m < 5 * m := by omega
          have hm10 : m ∣ 10 ^ m := ih m hmn ⟨L, dvd_trans (dvd_mul_left m 5) hL⟩
          calc 5 * m ∣ 5 * 10 ^ m := mul_dvd_mul_left 5 hm10
            _ ∣ 10 * 10 ^ m := mul_dvd_mul_right (by norm_num) _
            _ = 10 ^ (m + 1) := by rw [pow_succ]; ring
            _ ∣ 10 ^ (5 * m) := pow_dvd_pow 10 (by omega)
        · have hc : n.Coprime 10 := by
            rw [show (10 : ℕ) = 2 * 5 from rfl, Nat.coprime_mul_iff_right]
            exact ⟨((Nat.Prime.coprime_iff_not_dvd (by norm_num)).mpr hd2).symm,
              ((Nat.Prime.coprime_iff_not_dvd (by norm_num)).mpr hd5).symm⟩
          have h1 : n = 1 := (hc.pow_right L).eq_one_of_dvd hL
          omega

/-- If `q * 10 ^ L` is an integer then `10 ^ L` clears `q`'s denominator. -/
theorem den_dvd_of_mul_pow_den_one {q : ℚ} {L : Nat} (h : (q * 10 ^ L).den = 1) :
    q.den ∣ 10 ^ L := by
  have h1 : (((q * 10 ^ L).num : ℚ)) = q * 10 ^ L := (Rat.den_eq_one_iff _).mp h
  have h2 : q = Rat.divInt (q * 10 ^ L).num ((10 : ℤ) ^ L) := by
    rw [Rat.divInt_eq_div, h1]
    push_cast
    field_simp
  have h3 := Rat.den_dvd (q * 10 ^ L).num ((10 : ℤ) ^ L)
  rw [← h2] at h3
  exact_mod_cast h3

/-- If `10 ^ L` clears `q`'s denominator then `q * 10 ^ L` is an integer. -/
theorem mul_pow_den_one_of_dvd {q : ℚ} {L : Nat} (h : q.den ∣ 10 ^ L) :
    (q * 10 ^ L).den = 1 := by
  obtain ⟨t, ht⟩ := h
  have hd0 : (q.den : ℚ) ≠ 0 := by
    exact_mod_cast Nat.pos_iff_ne_zero.mp q.den_pos
  have hkey : q * 10 ^ L = ((q.num * t : ℤ) : ℚ) := by
    have h10 : ((10 : ℚ)) ^ L = (q.den : ℚ) * (t : ℚ) := by exact_mod_cast ht
    have hqd : (q.num : ℚ) = q * (q.den : ℚ) := (div_eq_iff hd0).mp (Rat.num_div_den q)
    rw [h10]
    push_cast
    rw [hqd]
    ring
  rw [hkey, Rat.den_intCast]

/-- Integer rationals with `0 ≤ r < 1` are zero. -/
theorem rat_den_one_eq_zero {r : ℚ} (h0 : 0 ≤ r) (h1 : r < 1) (hden : r.den = 1) :
    r = 0 := by
  have h2 := (Rat.den_eq_one_iff r).mp hden
  have hn0 : (0 : ℚ) ≤ (r.num : ℚ) := by rw [h2]; exact h0
  have hn1 : ((r.num : ℚ)) < 1 := by rw [h2]; exact h1
  have i0 : (0 : ℤ) ≤ r.num := by exact_mod_cast hn0
  have i1 : r.num < 1 := by exact_mod_cast hn1
  have : r.num = 0 := by omega
  rw [← h2, this, Int.cast_zero]

/-- Integrality is preserved by subtraction. -/
theorem den_one_sub {a b : ℚ} (ha : a.den = 1) (hb : b.den = 1) : (a - b).den = 1 := by
  rw [← (Rat.den_eq_one_iff a).mp ha, ← (Rat.den_eq_one_iff b).mp hb, ← Int.cast_sub,
    Rat.den_intCast]

/-- A character list containing a dot never hits the `inf`/`nan` branches. -/
theorem parseUnsignedF_of_dot {cs : List Char} (h : '.' ∈ cs) :
    parseUnsignedF cs = (parseMantissa cs).map FVal.fin := by
  have hm : '.' ∈ cs.map Char.toLower := List.mem_map.mpr ⟨'.', h, rfl⟩
  simp only [parseUnsignedF]
  rw [if_neg, if_neg]
  · intro he; rw [he] at hm; exact absurd hm (by decide)
  · rintro (he | he) <;> rw [he] at hm <;> exact absurd hm (by decide)

/-- A finite `parseUnsignedF` result comes from the mantissa parser. -/
theorem parseUnsignedF_fin {cs : List Char} {q : ℚ}
    (h : parseUnsignedF cs = some (.fin q)) : parseMantissa cs = some q := by
  simp only [parseUnsignedF] at h
  split_ifs at h
  · exact absurd h (by simp)
  · exact absurd h (by simp)
  · cases hm : parseMantissa cs with
    | none => rw [hm] at h; exact absurd h (by simp)
    | some v =>
      rw [hm] at h
      exact congrArg some (FVal.fin.inj (Option.some.inj h))

/-- A parsed mantissa is non-negative and has a power-of-ten-clearing
denominator. -/
theorem parseMantissa_den {cs : List Char} {q : ℚ} (h : parseMantissa cs = some q) :
    0 ≤ q ∧ ∃ L, q.den ∣ 10 ^ L := by
  simp only [parseMantissa] at h
  split at h
  · split_ifs at h
    simp only [Option.some.injEq] at h
    subst h
    exact ⟨Nat.cast_nonneg _, 0, by rw [Rat.den_natCast]; exact one_dvd _⟩
  · rename_i f hp
    split_ifs at h
    simp only [Option.some.injEq] at h
    subst h
    constructor
    · positivity
    · refine ⟨f.length, den_dvd_of_mul_pow_den_one ?_⟩
      have hkey : ((digitsVal (splitDot cs).1 : ℚ) + (digitsVal f : ℚ) / 10 ^ f.length)
          * 10 ^ f.length
          = ((digitsVal (splitDot cs).1 * 10 ^ f.length + digitsVal f : ℕ) : ℚ) := by
        push_cast
        field_simp
      rw [hkey, Rat.den_natCast]

/-- A finite `parseFloat` result has a power-of-ten-clearing denominator. -/
theorem parseFloat_fin_den {s : String} {q : ℚ}
    (h : parseFloat s = some (.fin q)) : ∃ L, q.den ∣ 10 ^ L := by
  cases hdata : s.data with
  | nil =>
    simp only [parseFloat, hdata] at h
    rw [show parseUnsignedF [] = (none : Option FVal) from by decide] at h
    exact absurd h (by simp)
  | cons c rest =>
    simp only [parseFloat, hdata] at h
    split_ifs at h
    · exact (parseMantissa_den (parseUnsignedF_fin h)).2
    · cases hu : parseUnsignedF rest with
      | none => rw [hu] at h; exact absurd h (by simp)
      | some v =>
        rw [hu] at h
        have h2 := Option.some.inj h
        cases v with
        | nan => exact absurd h2 (by simp [fvNeg])
        | inf b => exact absurd h2 (by simp [fvNeg])
        | fin p =>
          have hpq : -p = q := FVal.fin.inj h2
          obtain ⟨L, hL⟩ := (parseMantissa_den (parseUnsignedF_fin hu)).2
          refine ⟨L, ?_⟩
          rw [← hpq, Rat.neg_den]
          exact hL
    · exact (parseMantissa_den (parseUnsignedF_fin h)).2

/-- Long division of zero produces no digits. -/
theorem fracDigitsAux_zero (fuel : Nat) : fracDigitsAux fuel 0 = [] := by
  cases fuel <;> simp [fracDigitsAux]

/-- Correctness of the fractional long division: when some `10 ^ L` with
`L ≤ fuel` clears the denominator of `r ∈ [0, 1)`, the digits produced are
decimal digits valuing exactly `r`, and for `r ≠ 0` they are nonempty with a
nonzero last digit. -/
theorem fracDigitsAux_spec (fuel : Nat) : ∀ r : ℚ, 0 ≤ r → r < 1 →
    (∃ L, L ≤ fuel ∧ (r * 10 ^ L).den = 1) →
    (∀ c ∈ fracDigitsAux fuel r, c.isDigit = true) ∧
    ((digitsVal (fracDigitsAux fuel r) : ℚ) / 10 ^ (fracDigitsAux fuel r).length = r) ∧
    (r ≠ 0 → fracDigitsAux fuel r ≠ [] ∧
      (fracDigitsAux fuel r).getLast? ≠ some '0') := by
  induction fuel with
  | zero =>
    rintro r h0 h1 ⟨L, hL, hden⟩
    have hL0 : L = 0 := Nat.le_zero.mp hL
    subst hL0
    rw [pow_zero, mul_one] at hden
    have hr : r = 0 := rat_den_one_eq_zero h0 h1 hden
    subst hr
    refine ⟨by simp [fracDigitsAux], by simp [fracDigitsAux, digitsVal], fun hne => absurd rfl hne⟩
  | succ fuel ih =>
    rintro r h0 h1 ⟨L, hL, hden⟩
    by_cases hr : r = 0
    · subst hr
      rw [fracDigitsAux_zero]
      refine ⟨by simp, by simp [digitsVal], fun hne => absurd rfl hne⟩
    · have hfl : Rat.floor (r * 10) = ⌊r * 10⌋ := rfl
      have hr10 : (0 : ℚ) ≤ r * 10 := by positivity
      have hd0 : (0 : ℤ) ≤ Rat.floor (r * 10) := by rw [hfl]; exact Int.floor_nonneg.mpr hr10
      have hd10 : Rat.floor (r * 10) < 10 := by
        rw [hfl]
        exact Int.floor_lt.mpr (by push_cast; linarith)
      have hD10 : (Rat.floor (r * 10)).toNat < 10 := by
        rw [Int.toNat_lt hd0]
        exact_mod_cast hd10
      have hDcast : (((Rat.floor (r * 10)).toNat : ℚ)) = ((Rat.floor (r * 10) : ℤ) : ℚ) := by
        exact_mod_cast congrArg (Int.cast : ℤ → ℚ) (Int.toNat_of_nonneg hd0)
      have hr'0 : (0 : ℚ) ≤ r * 10 - Rat.floor (r * 10) := by
        rw [hfl]
        exact sub_nonneg.mpr (Int.floor_le _)
      have hr'1 : r * 10 - Rat.floor (r * 10) < 1 := by
        rw [hfl]
        have := Int.lt_floor_add_one (r * 10)
        linarith
      have hL1 : 1 ≤ L := by
        by_contra hc
        have : L = 0 := by omega
        subst this
        rw [pow_zero, mul_one] at hden
        exact hr (rat_den_one_eq_zero h0 h1 hden)
      have hpow : (10 : ℚ) * 10 ^ (L - 1) = 10 ^ L := by
        rw [← pow_succ']
        congr 1
        omega
      have hint : (((Rat.floor (r * 10) : ℤ) : ℚ) * 10 ^ (L - 1)).den = 1 := by
        rw [show (((Rat.floor (r * 10) : ℤ) : ℚ)) * 10 ^ (L - 1)
            = ((Rat.floor (r * 10) * 10 ^ (L - 1) : ℤ) : ℚ) from by push_cast; ring,
          Rat.den_intCast]
      have hden' : ((r * 10 - Rat.floor (r * 10)) * 10 ^ (L - 1)).den = 1 := by
        rw [show (r * 10 - (Rat.floor (r * 10) : ℚ)) * 10 ^ (L - 1)
            = r * 10 ^ L - ((Rat.floor (r * 10) : ℤ) : ℚ) * 10 ^ (L - 1) from by
          rw [← hpow]; ring]
        exact den_one_sub hden hint
      obtain ⟨ih1, ih2, ih3⟩ :=
        ih (r * 10 - Rat.floor (r * 10)) hr'0 hr'1 ⟨L - 1, by omega, hden'⟩
      have hout : fracDigitsAux (fuel + 1) r
          = Nat.digitChar (Rat.floor (r * 10)).toNat
            :: fracDigitsAux fuel (r * 10 - Rat.floor (r * 10)) := by
        simp only [fracDigitsAux]
        rw [if_neg hr]
      refine ⟨?_, ?_, ?_⟩
      · intro c hc
        rw [hout] at hc
        rcases List.mem_cons.mp hc with hc | hc
        · rw [hc]; exact digitChar_isDigit hD10
        · exact ih1 c hc
      · rw [hout]
        have hsplit : Nat.digitChar (Rat.floor (r * 10)).toNat
            :: fracDigitsAux fuel (r * 10 - Rat.floor (r * 10))
            = [Nat.digitChar (Rat.floor (r * 10)).toNat]
              ++ fracDigitsAux fuel (r * 10 - Rat.floor (r * 10)) := rfl
        rw [hsplit, digitsVal_append]
        have hone : digitsVal [Nat.digitChar (Rat.floor (r * 10)).toNat]
            = (Rat.floor (r * 10)).toNat := by
          simp only [digitsVal, List.foldl_cons, List.foldl_nil, Nat.mul_zero, Nat.zero_add]
          exact digitChar_toNat hD10
        have hlen : ([Nat.digitChar (Rat.floor (r * 10)).toNat]
            ++ fracDigitsAux fuel (r * 10 - Rat.floor (r * 10))).length
            = (fracDigitsAux fuel (r * 10 - Rat.floor (r * 10))).length + 1 := by
          simp
        rw [hlen, hone]
        have hdv : ((digitsVal (fracDigitsAux fuel (r * 10 - Rat.floor (r * 10))) : ℚ))
            = (r * 10 - Rat.floor (r * 10))
              * 10 ^ (fracDigitsAux fuel (r * 10 - Rat.floor (r * 10))).length :=
          (div_eq_iff (pow_ne_zero _ (by norm_num))).mp ih2
        push_cast
        rw [hdv, hDcast, pow_succ]
        have hpne : ((10 : ℚ)) ^ (fracDigitsAux fuel (r * 10 - Rat.floor (r * 10))).length
            ≠ 0 := pow_ne_zero _ (by norm_num)
        field_simp
        ring
      · intro _
        rw [hout]
        refine ⟨by simp, ?_⟩
        by_cases hr' : r * 10 - Rat.floor (r * 10) = 0
        · rw [hr', fracDigitsAux_zero]
          have hdpos : 1 ≤ (Rat.floor (r * 10)).toNat := by
            have hrpos : 0 < r := lt_of_le_of_ne h0 (Ne.symm hr)
            have : ((Rat.floor (r * 10) : ℤ) : ℚ) = r * 10 := by linarith [sub_eq_zero.mp hr']
            have hdpos' : (0 : ℤ) < Rat.floor (r * 10) := by
              by_contra hc
              push_neg at hc
              have : ((Rat.floor (r * 10) : ℤ) : ℚ) ≤ 0 := by exact_mod_cast hc
              nlinarith
            omega
          intro heq
          exact digitChar_ne_zero hdpos hD10 (Option.some.inj heq)
        · obtain ⟨hne, hlast⟩ := ih3 hr'
          cases hrest : fracDigitsAux fuel (r * 10 - Rat.floor (r * 10)) with
          | nil => exact absurd hrest hne
          | cons x xs =>
            rw [List.getLast?_cons_cons]
            rw [hrest] at hlast
            exact hlast

/-- Trimming a character that is not the last character is a no-op. -/
theorem trimTrailing_no_op {c : Char} {l : List Char} (hne : l ≠ [])
    (hlast : l.getLast? ≠ some c) : trimTrailing c l = l := by
  rw [trimTrailing]
  obtain ⟨a, t, ha⟩ : ∃ a t, l.reverse = a :: t := by
    cases hrev : l.reverse with
    | nil => exact absurd (List.reverse_eq_nil_iff.mp hrev) hne
    | cons a t => exact ⟨a, t, rfl⟩
  have hac : ¬ a = c := by
    intro hac
    apply hlast
    rw [← List.head?_reverse, ha, hac]
    rfl
  rw [ha, List.dropWhile_cons, if_neg (by simpa using hac), ← ha, List.reverse_reverse]

/-- The integer rendering contains no dot. -/
theorem intFmt_no_dot (n : Int) : '.' ∉ (intFmt n).data := by
  rw [intFmt]
  split
  · intro h
    rw [String.data_append] at h
    rcases List.mem_append.mp h with h | h
    · exact absurd h (by decide)
    · exact isDigit_ne_dot (natStr_isDigits _ _ h) rfl
  · intro h
    exact isDigit_ne_dot (natStr_isDigits _ _ h) rfl

/-- The last element of a cons is the last element of a nonempty tail. -/
theorem getLast_cons_ne_nil {c : Char} {l : List Char} (hl : l ≠ []) :
    (c :: l).getLast? = l.getLast? := by
  cases l with
  | nil => exact absurd rfl hl
  | cons x xs => exact List.getLast?_cons_cons

/-- The non-integer rendering of a non-negative, non-integral rational whose
denominator divides a power of ten: it contains a dot, ends in neither `'0'`
nor `'.'`, and parses back to exactly the same rational. -/
theorem fmtNonInt_spec {q : ℚ} (h0 : 0 ≤ q) (hden : q.den ≠ 1)
    (hL : ∃ L, q.den ∣ 10 ^ L) :
    '.' ∈ (fmtNonInt q).data ∧ (fmtNonInt q).data.getLast? ≠ some '0' ∧
    (fmtNonInt q).data.getLast? ≠ some '.' ∧ parseFloat (fmtNonInt q) = some (.fin q) := by
  have hfl : Rat.floor q = ⌊q⌋ := rfl
  have hr0 : (0 : ℚ) ≤ q - Rat.floor q := by rw [hfl]; exact sub_nonneg.mpr (Int.floor_le q)
  have hr1 : q - Rat.floor q < 1 := by
    rw [hfl]
    have := Int.lt_floor_add_one q
    linarith
  have hrne : q - Rat.floor q ≠ 0 := by
    intro hc
    apply hden
    have hq : q = ((Rat.floor q : ℤ) : ℚ) := by
      have := sub_eq_zero.mp hc
      linarith
    rw [hq, Rat.den_intCast]
  have hdvd : q.den ∣ 10 ^ q.den := dvd_ten_pow_self q.den hL
  have hq1 : (q * 10 ^ q.den).den = 1 := mul_pow_den_one_of_dvd hdvd
  have hint : (((Rat.floor q : ℤ) : ℚ) * 10 ^ q.den).den = 1 := by
    rw [show (((Rat.floor q : ℤ) : ℚ)) * 10 ^ q.den
        = ((Rat.floor q * 10 ^ q.den : ℤ) : ℚ) from by push_cast; ring, Rat.den_intCast]
  have hrden : ((q - Rat.floor q) * 10 ^ q.den).den = 1 := by
    rw [show (q - (Rat.floor q : ℚ)) * 10 ^ q.den
        = q * 10 ^ q.den - ((Rat.floor q : ℤ) : ℚ) * 10 ^ q.den from by ring]
    exact den_one_sub hq1 hint
  obtain ⟨hdig, hval, hne3⟩ := fracDigitsAux_spec q.den (q - Rat.floor q) hr0 hr1
    ⟨q.den, le_refl _, hrden⟩
  obtain ⟨hfne, hlast⟩ := hne3 hrne
  obtain ⟨y, hy⟩ : ∃ y, (fracDigitsAux q.den (q - Rat.floor q)).getLast? = some y := by
    cases hg : (fracDigitsAux q.den (q - Rat.floor q)).getLast? with
    | none => exact absurd (List.getLast?_eq_none_iff.mp hg) hfne
    | some y => exact ⟨y, rfl⟩
  have hy_digit : y.isDigit = true := hdig y (List.mem_of_mem_getLast? hy)
  have hlast_fmt : (natStr (Rat.floor q).toNat
      ++ '.' :: fracDigitsAux q.den (q - Rat.floor q)).getLast?
      = some y := by
    rw [List.getLast?_append, getLast_cons_ne_nil hfne, hy]
    rfl
  have hfmt_ne : natStr (Rat.floor q).toNat
      ++ '.' :: fracDigitsAux q.den (q - Rat.floor q) ≠ [] := by simp
  have hlast0 : (natStr (Rat.floor q).toNat
      ++ '.' :: fracDigitsAux q.den (q - Rat.floor q)).getLast? ≠ some '0' := by
    rw [hlast_fmt, ← hy]
    exact hlast
  have hlastdot : (natStr (Rat.floor q).toNat
      ++ '.' :: fracDigitsAux q.den (q - Rat.floor q)).getLast? ≠ some '.' := by
    rw [hlast_fmt]
    intro heq
    exact isDigit_ne_dot hy_digit (Option.some.inj heq)
  have hdata : (fmtNonInt q).data
      = natStr (Rat.floor q).toNat ++ '.' :: fracDigitsAux q.den (q - Rat.floor q) := by
    simp only [fmtNonInt]
    rw [trimTrailing_no_op hfmt_ne hlast0, trimTrailing_no_op ?_ hlastdot]
    exact hfmt_ne
  refine ⟨?_, ?_, ?_, ?_⟩
  · rw [hdata]
    exact List.mem_append.mpr (Or.inr (List.mem_cons_self _ _))
  · rw [hdata]
    exact hlast0
  · rw [hdata]
    exact hlastdot
  · obtain ⟨c0, it, hipc⟩ : ∃ c0 it, natStr (Rat.floor q).toNat = c0 :: it := by
      cases hn : natStr (Rat.floor q).toNat with
      | nil => exact absurd hn (natStr_ne_nil _)
      | cons c0 it => exact ⟨c0, it, rfl⟩
    have hc0dig : c0.isDigit = true := by
      apply natStr_isDigits (Rat.floor q).toNat
      rw [hipc]
      exact List.mem_cons_self _ _
    have hdata0 : (fmtNonInt q).data
        = c0 :: (it ++ '.' :: fracDigitsAux q.den (q - Rat.floor q)) := by
      rw [hdata, hipc]
      rfl
    simp only [parseFloat, hdata0]
    rw [if_neg (isDigit_ne_plus hc0dig), if_neg (isDigit_ne_minus hc0dig)]
    have hre : c0 :: (it ++ '.' :: fracDigitsAux q.den (q - Rat.floor q))
        = (c0 :: it) ++ '.' :: fracDigitsAux q.den (q - Rat.floor q) := rfl
    rw [hre, ← hipc]
    have hnodot : '.' ∉ natStr (Rat.floor q).toNat :=
      fun hm => isDigit_ne_dot (natStr_isDigits _ _ hm) rfl
    rw [parseUnsignedF_of_dot
      (List.mem_append.mpr (Or.inr (List.mem_cons_self _ _)))]
    rw [parseMantissa_append hnodot
      (List.all_eq_true.mpr (fun c hc => natStr_isDigits _ c hc))
      (List.all_eq_true.mpr (fun c hc => hdig c hc)) (natStr_ne_nil _)]
    rw [digitsVal_natStr, hval]
    have hflnn : (0 : ℤ) ≤ Rat.floor q := by rw [hfl]; exact Int.floor_nonneg.mpr h0
    have hcast : (((Rat.floor q).toNat : ℚ)) = ((Rat.floor q : ℤ) : ℚ) := by
      exact_mod_cast congrArg (Int.cast : ℤ → ℚ) (Int.toNat_of_nonneg hflnn)
    have hval2 : (((Rat.floor q).toNat : ℚ)) + (q - Rat.floor q) = q := by
      rw [hcast]; ring
    rw [hval2]
    rfl

/-- C7: for every decimal input the normalizer accepts with finite parsed
value `q` (non-negative, as a leading minus has been rejected), the output is
the string `"0"` when `q` is zero; the plain integer rendering, containing no
decimal point, when `q` is a nonzero integer; and otherwise the rendering of
`q` that contains a decimal point, ends in neither a trailing zero nor a
dangling decimal point, and parses back to exactly `q`. -/
theorem canonicalize_decimal_output_form (value : Json) (mn mx : String)
    (precision : Nat) (out : Json) (s : String) (q : ℚ)
    (hs : decimalStr value = some s)
    (hq : parseFloat s = some (.fin q)) (h0 : 0 ≤ q)
    (hok : canonicalize_decimal value mn mx precision = .ok out) :
    (q = 0 → out = .str "0") ∧
    (q ≠ 0 → q.den = 1 → out = .str (intFmt q.num) ∧ '.' ∉ (intFmt q.num).data) ∧
    (q.den ≠ 1 →
      out = .str (fmtNonInt q) ∧ '.' ∈ (fmtNonInt q).data ∧
      (fmtNonInt q).data.getLast? ≠ some '0' ∧
      (fmtNonInt q).data.getLast? ≠ some '.' ∧
      parseFloat (fmtNonInt q) = some (.fin q)) := by
  have hLq : ∃ L, q.den ∣ 10 ^ L := parseFloat_fin_den hq
  simp only [canonicalize_decimal, hs, hq] at hok
  split at hok
  · exact absurd hok (by simp)
  · split at hok
    · exact absurd hok (by simp)
    · split at hok
      · exact absurd hok (by simp)
      · split at hok
        · exact absurd hok (by simp)
        · split at hok
          · rename_i mnv mxv heq1 heq2
            split at hok
            · exact absurd hok (by simp)
            · split at hok
              · exact absurd hok (by simp)
              · split_ifs at hok with hz hd1
                · injection hok with hout
                  refine ⟨fun _ => hout.symm, fun hne _ => absurd hz hne,
                    fun hd => absurd (by rw [hz]; rfl) hd⟩
                · injection hok with hout
                  exact ⟨fun hz0 => absurd hz0 hz,
                    fun _ _ => ⟨hout.symm, intFmt_no_dot q.num⟩,
                    fun hd => absurd hd1 hd⟩
                · injection hok with hout
                  obtain ⟨m1, m2, m3, m4⟩ := fmtNonInt_spec h0 hd1 hLq
                  exact ⟨fun hz0 => absurd hz0 hz, fun _ hdd => absurd hdd hd1,
                    fun _ => ⟨hout.symm, m1, m2, m3, m4⟩⟩
          · exact absurd hok (by simp)

theorem canonicalize_decimal_output_form_witness :
    canonicalize_decimal (.str "1.50000") "0.00000001" "1000000" 8 = .ok (.str "1.5") ∧
    Json.str "1.5" = .str (fmtNonInt (3 / 2 : ℚ)) ∧ fmtNonInt (3 / 2 : ℚ) = "1.5" :=
  ⟨by with_unfolding_all rfl,
   ((canonicalize_decimal_output_form (.str "1.50000") "0.00000001" "1000000" 8
       (.str "1.5") "1.50000" (3 / 2) (by with_unfolding_all rfl)
       (by with_unfolding_all rfl) (by norm_num)
       (by with_unfolding_all rfl)).2.2 (by with_unfolding_all decide)).1,
   by with_unfolding_all rfl⟩
